import Mathlib

/-!
Verification of the mesh-ingestion core of tapeds/fp-webgl-grafkom
(`src/main.js`): the OBJ mesh builder `loadOBJ` (positions, fan
triangulation, Newell face normals, per-vertex normal accumulation,
bounding-box normalization, material groups) and the two MTL parsers
`parseMTL` and `loadMTL`.

Modelling conventions:
* JS numbers are modelled by `EF K`: either NaN, +Infinity, -Infinity, or a
  finite value in a linear ordered field `K`.  Finite arithmetic is exact
  (no rounding/overflow), the standard idealization; the special values
  follow IEEE/JS semantics (`0 * Infinity = NaN`, `x / 0 = ±Infinity` for
  `x ≠ 0`, `0 / 0 = NaN`, `Math.min/max` propagate NaN, comparisons with
  NaN are false).  `-0` is identified with `0`.
* `Math.sqrt` is an external primitive; the builder is parametrized by a
  function `sq : K → K` standing for it and theorems about geometry
  instantiate `K := ℝ`, `sq := Real.sqrt`.  Outputs that do not depend on
  positions at all (triangle indices, material groups, current material)
  are proved independent of both `K` and `sq`.
* Input text is modelled one step above raw characters: a line is given as
  its directive together with the numeric payload the source extracts from
  the tokens (`parseFloat` results for `v`/property lines, the
  `parseInt(tok.split("/")[0])` results for `f` lines, the name token for
  `usemtl`/`newmtl`).  Lines whose directive is not recognized are `other`.
  A JS array read out of range yields `undefined`, which arithmetic turns
  into NaN; reads are modelled accordingly.
-/

set_option linter.unusedSectionVars false

namespace GrafKom

/-- A JavaScript number: NaN, +Infinity, -Infinity, or a finite value. -/
inductive EF (K : Type) where
  | nan : EF K
  | pinf : EF K
  | ninf : EF K
  | fin : K → EF K
  deriving DecidableEq

namespace EF

variable {K : Type} [LinearOrderedField K]

/-- JS addition. -/
def add : EF K → EF K → EF K
  | nan, _ => nan
  | _, nan => nan
  | pinf, ninf => nan
  | ninf, pinf => nan
  | pinf, _ => pinf
  | _, pinf => pinf
  | ninf, _ => ninf
  | _, ninf => ninf
  | fin a, fin b => fin (a + b)

/-- JS subtraction. -/
def sub : EF K → EF K → EF K
  | nan, _ => nan
  | _, nan => nan
  | pinf, pinf => nan
  | ninf, ninf => nan
  | pinf, _ => pinf
  | ninf, _ => ninf
  | _, pinf => ninf
  | _, ninf => pinf
  | fin a, fin b => fin (a - b)

/-- JS multiplication (`0 * ±Infinity = NaN`). -/
def mul : EF K → EF K → EF K
  | nan, _ => nan
  | _, nan => nan
  | pinf, pinf => pinf
  | pinf, ninf => ninf
  | ninf, pinf => ninf
  | ninf, ninf => pinf
  | pinf, fin b => if 0 < b then pinf else if b < 0 then ninf else nan
  | ninf, fin b => if 0 < b then ninf else if b < 0 then pinf else nan
  | fin a, pinf => if 0 < a then pinf else if a < 0 then ninf else nan
  | fin a, ninf => if 0 < a then ninf else if a < 0 then pinf else nan
  | fin a, fin b => fin (a * b)

/-- JS division (`x / 0 = ±Infinity` for `x ≠ 0`, `0 / 0 = NaN`,
`finite / ±Infinity = 0`, `±Infinity / ±Infinity = NaN`). -/
def div : EF K → EF K → EF K
  | nan, _ => nan
  | _, nan => nan
  | pinf, pinf => nan
  | pinf, ninf => nan
  | ninf, pinf => nan
  | ninf, ninf => nan
  | pinf, fin b => if 0 ≤ b then pinf else ninf
  | ninf, fin b => if 0 ≤ b then ninf else pinf
  | fin _, pinf => fin 0
  | fin _, ninf => fin 0
  | fin a, fin b =>
      if b = 0 then (if a = 0 then nan else if 0 < a then pinf else ninf)
      else fin (a / b)

/-- `Math.sqrt`, given the underlying square root `s` on finite values. -/
def sqrtE (s : K → K) : EF K → EF K
  | nan => nan
  | pinf => pinf
  | ninf => nan
  | fin x => if x < 0 then nan else fin (s x)

/-- `Math.min` of two values (NaN propagates). -/
def minE : EF K → EF K → EF K
  | nan, _ => nan
  | _, nan => nan
  | ninf, _ => ninf
  | _, ninf => ninf
  | pinf, b => b
  | a, pinf => a
  | fin a, fin b => fin (min a b)

/-- `Math.max` of two values (NaN propagates). -/
def maxE : EF K → EF K → EF K
  | nan, _ => nan
  | _, nan => nan
  | pinf, _ => pinf
  | _, pinf => pinf
  | ninf, b => b
  | a, ninf => a
  | fin a, fin b => fin (max a b)

/-- The JS comparison `e > 0` (false on NaN). -/
def isPos : EF K → Prop
  | nan => False
  | pinf => True
  | ninf => False
  | fin x => 0 < x

instance : ∀ e : EF K, Decidable e.isPos
  | nan => by unfold isPos; infer_instance
  | pinf => by unfold isPos; infer_instance
  | ninf => by unfold isPos; infer_instance
  | fin _ => by unfold isPos; infer_instance

end EF

/-- A 3-vector of JS numbers. -/
abbrev V3 (K : Type) := EF K × EF K × EF K

/-- One tokenized line of OBJ text, as consumed by `loadOBJ`:
`v` carries the `parseFloat` values of all fields after the directive,
`f` carries the `parseInt(tok.split("/")[0])` value of each face token
(still 1-based; `loadOBJ` decrements), `usemtl` carries the name token,
and every unrecognized directive (including blank lines, `vn`, `vt`, ...)
is `other`. -/
inductive ObjLine where
  | v (fields : List ℚ)
  | usemtl (name : String)
  | f (verts : List ℤ)
  | other
  deriving DecidableEq

/-- A material group: `startIndex` and `indexCount` into the global
triangle-index sequence (`{ startIndex: indices.length, indexCount: 0 }`). -/
structure MGroup where
  startIndex : ℕ
  indexCount : ℕ
  deriving DecidableEq

/-- The mutable state of the `loadOBJ` scan loop. -/
structure BState (K : Type) where
  positions : List (EF K)
  indices : List ℤ
  materialIndices : List (Option String)
  materialGroups : List (String × MGroup)
  currentMaterial : Option String
  tempNormals : ℤ → Option (V3 K)

variable {K : Type} [LinearOrderedField K]

/-- Assoc-list lookup, modelling `obj[key]` on a JS object built by
insertion (string keys keep first-insertion order). -/
def lookupA {α : Type} : List (String × α) → String → Option α
  | [], _ => none
  | (k', v) :: rest, k => if k' = k then some v else lookupA rest k

/-- Mutate the value at a key in place (JS property assignment keeps the
key at its original position). -/
def updateA {α : Type} (l : List (String × α)) (k : String) (f : α → α) :
    List (String × α) :=
  match l with
  | [] => []
  | (k', v) :: rest =>
      if k' = k then (k', f v) :: rest else (k', v) :: updateA rest k f

/-- `positions[j]` for a (possibly negative) JS index: out-of-range reads
give `undefined`, which the surrounding arithmetic turns into NaN. -/
def getp (ps : List (EF K)) (j : ℤ) : EF K :=
  if 0 ≤ j then ps.getD j.toNat EF.nan else EF.nan

/-- `positions[j]` for a natural JS index, NaN when out of range. -/
def getn (ps : List (EF K)) (j : ℕ) : EF K :=
  ps.getD j EF.nan

/-- One iteration of the Newell loop of `loadOBJ` at loop variable `i`:
`nx += (y1-y2)*(z1+z2)`, `ny += (z1-z2)*(x1+x2)`, `nz += (x1-x2)*(y1+y2)`
for the vertex pair `(i, (i+1) % length)` of the decremented face
vertices `fv`. -/
def newellBody (ps : List (EF K)) (fv : List ℤ) (acc : V3 K) (i : ℕ) : V3 K :=
  let v1 := fv.getD i 0
  let v2 := fv.getD ((i + 1) % fv.length) 0
  let x1 := getp ps (v1 * 3)
  let y1 := getp ps (v1 * 3 + 1)
  let z1 := getp ps (v1 * 3 + 2)
  let x2 := getp ps (v2 * 3)
  let y2 := getp ps (v2 * 3 + 1)
  let z2 := getp ps (v2 * 3 + 2)
  (acc.1.add ((y1.sub y2).mul (z1.add z2)),
   acc.2.1.add ((z1.sub z2).mul (x1.add x2)),
   acc.2.2.add ((x1.sub x2).mul (y1.add y2)))

/-- The Newell accumulation loop of `loadOBJ` over all consecutive vertex
pairs, starting from `(0, 0, 0)`. -/
def newellAccum (ps : List (EF K)) (fv : List ℤ) : V3 K :=
  (List.range fv.length).foldl (newellBody ps fv)
    (EF.fin 0, EF.fin 0, EF.fin 0)

/-- Squared length `a*a + b*b + c*c` (left associated, as in the source). -/
def sqLen (n : V3 K) : EF K :=
  ((n.1.mul n.1).add (n.2.1.mul n.2.1)).add (n.2.2.mul n.2.2)

/-- Divide every component by `l` (the `n / length` normalization). -/
def divV (n : V3 K) (l : EF K) : V3 K :=
  (n.1.div l, n.2.1.div l, n.2.2.div l)

/-- The face normal computed by `loadOBJ`: Newell accumulation, then
division by `Math.sqrt(nx*nx+ny*ny+nz*nz)` when that length is `> 0`. -/
def faceNormal (sq : K → K) (ps : List (EF K)) (fv : List ℤ) : V3 K :=
  let n := newellAccum ps fv
  let len := EF.sqrtE sq (sqLen n)
  if len.isPos then divV n len else n

/-- `for (const vertex of faceVertices) { ... n[0] += nx; ... }`:
add the face normal into each referenced vertex's accumulator (creating
it as `[0,0,0]` first when absent). -/
def accumNormals (n : V3 K) (fv : List ℤ) (t : ℤ → Option (V3 K)) :
    ℤ → Option (V3 K) :=
  fv.foldl
    (fun t v =>
      let cur := (t v).getD (EF.fin 0, EF.fin 0, EF.fin 0)
      Function.update t v
        (some (cur.1.add n.1, cur.2.1.add n.2.1, cur.2.2.add n.2.2)))
    t

/-- One iteration of the triangulation loop at loop variable `i`:
push `fv[0], fv[i], fv[i+1]` onto `indices`, push the current material three
times onto `materialIndices`, and add 3 to the current material group's
`indexCount` when that group exists. -/
def triBody (fv : List ℤ) (st : BState K) (i : ℕ) : BState K :=
  { st with
    indices := st.indices ++ [fv.getD 0 0, fv.getD i 0, fv.getD (i + 1) 0]
    materialIndices :=
      st.materialIndices ++
        [st.currentMaterial, st.currentMaterial, st.currentMaterial]
    materialGroups :=
      match st.currentMaterial with
      | none => st.materialGroups
      | some m => updateA st.materialGroups m
          (fun g => { g with indexCount := g.indexCount + 3 }) }

/-- The triangulation loop `for (let i = 1; i < faceVertices.length - 1; i++)`
(no iterations when the face has fewer than 3 usable vertices). -/
def triStep (s : BState K) (fv : List ℤ) : BState K :=
  (List.range' 1 (fv.length - 2)).foldl (triBody fv) s

/-- One iteration of the `loadOBJ` line scan. -/
def stepLine (sq : K → K) (s : BState K) (l : ObjLine) : BState K :=
  match l with
  | .v fields =>
      { s with
        positions := s.positions ++ fields.map (fun (q : ℚ) => EF.fin (q : K)) }
  | .usemtl m =>
      { s with
        currentMaterial := some m
        materialGroups :=
          match lookupA s.materialGroups m with
          | some _ => s.materialGroups
          | none =>
              s.materialGroups ++ [(m, ⟨s.indices.length, 0⟩)] }
  | .f raw =>
      let fv := raw.map (fun w => w - 1)
      let n := faceNormal sq s.positions fv
      triStep { s with tempNormals := accumNormals n fv s.tempNormals } fv
  | .other => s

/-- The empty initial state of the scan. -/
def initState : BState K :=
  { positions := []
    indices := []
    materialIndices := []
    materialGroups := []
    currentMaterial := none
    tempNormals := fun _ => none }

/-- Run the whole line scan of `loadOBJ`. -/
def runLines (sq : K → K) (ls : List ObjLine) : BState K :=
  ls.foldl (stepLine sq) initState

/-- The per-vertex normal finalization loop
(`for (let i = 0; i < positions.length / 3; i++)`): look up the
accumulator (`|| [0,0,1]` when absent), divide by its length when `> 0`,
and append the three components.  The loop bound `positions.length / 3`
is a float, so the loop runs `⌈positions.length / 3⌉` times. -/
def finBody (sq : K → K) (t : ℤ → Option (V3 K)) (acc : List (EF K))
    (i : ℕ) : List (EF K) :=
  let n := (t (i : ℤ)).getD (EF.fin 0, EF.fin 0, EF.fin 1)
  let len := EF.sqrtE sq (sqLen n)
  let n2 := if len.isPos then divV n len else n
  acc ++ [n2.1, n2.2.1, n2.2.2]

def finalizeNormals (sq : K → K) (t : ℤ → Option (V3 K)) (plen : ℕ) :
    List (EF K) :=
  (List.range ((plen + 2) / 3)).foldl (finBody sq t) []

/-- The bounding-box loop (`for (let i = 0; i < positions.length; i += 3)`
with `Math.min`/`Math.max` folds starting at `±Infinity`); the reads at
`i+1`, `i+2` can fall off the end of a misaligned array, giving NaN. -/
def bboxBody (ps : List (EF K)) (acc : V3 K × V3 K) (k : ℕ) : V3 K × V3 K :=
  let i := 3 * k
  let px := getn ps i
  let py := getn ps (i + 1)
  let pz := getn ps (i + 2)
  ((acc.1.1.minE px, acc.1.2.1.minE py, acc.1.2.2.minE pz),
   (acc.2.1.maxE px, acc.2.2.1.maxE py, acc.2.2.2.maxE pz))

def bbox (ps : List (EF K)) : V3 K × V3 K :=
  (List.range ((ps.length + 2) / 3)).foldl (bboxBody ps)
    ((EF.pinf, EF.pinf, EF.pinf), (EF.ninf, EF.ninf, EF.ninf))

/-- `center = [(minX+maxX)/2, (minY+maxY)/2, (minZ+maxZ)/2]`. -/
def centerOf (mn mx : V3 K) : V3 K :=
  ((mn.1.add mx.1).div (EF.fin 2),
   (mn.2.1.add mx.2.1).div (EF.fin 2),
   (mn.2.2.add mx.2.2).div (EF.fin 2))

/-- `scale = 2 / Math.max(maxX-minX, maxY-minY, maxZ-minZ)`. -/
def scaleOf (mn mx : V3 K) : EF K :=
  (EF.fin 2).div
    (((mx.1.sub mn.1).maxE (mx.2.1.sub mn.2.1)).maxE (mx.2.2.sub mn.2.2))

/-- `positions[j] = v` for a JS array: in-place when `j < length`,
appending when `j = length` (the only out-of-range writes the rescaling
loop can make are contiguous appends). -/
def setp (ps : List (EF K)) (j : ℕ) (v : EF K) : List (EF K) :=
  if j < ps.length then ps.set j v
  else if j = ps.length then ps ++ [v]
  else ps

/-- One body of the rescaling loop: the three sequential in-place writes
`positions[i+a] = (positions[i+a] - center[a]) * scale`. -/
def scaleStep (c : V3 K) (sc : EF K) (ps : List (EF K)) (i : ℕ) :
    List (EF K) :=
  let ps1 := setp ps i (((getn ps i).sub c.1).mul sc)
  let ps2 := setp ps1 (i + 1) (((getn ps1 (i + 1)).sub c.2.1).mul sc)
  setp ps2 (i + 2) (((getn ps2 (i + 2)).sub c.2.2).mul sc)

/-- The rescaling loop `for (let i = 0; i < positions.length; i += 3)`,
re-reading the (possibly grown) length each iteration.  The loop always
terminates: `i` rises by 3 each pass and the array can only grow up to
index `i+2`, so there are at most `⌈length/3⌉ + 1` passes; the fuel
passed in (`length + 3`) is a generous upper bound. -/
def scaleLoop (c : V3 K) (sc : EF K) : ℕ → List (EF K) → ℕ → List (EF K)
  | 0, ps, _ => ps
  | fuel + 1, ps, i =>
      if i < ps.length then scaleLoop c sc fuel (scaleStep c sc ps i) (i + 3)
      else ps

/-- The finished mesh object returned by `loadOBJ` (minus the fetched
material map, which the MTL models below produce separately). -/
structure Mesh (K : Type) where
  positions : List (EF K)
  normals : List (EF K)
  indices : List ℤ
  materialIndices : List (Option String)
  materialGroups : List (String × MGroup)

/-- The OBJ-processing core of `loadOBJ`: scan all lines, finalize the
per-vertex normals, then center and rescale the positions in place. -/
def buildMesh (sq : K → K) (ls : List ObjLine) : Mesh K :=
  let s := runLines sq ls
  let nrm := finalizeNormals sq s.tempNormals s.positions.length
  let bb := bbox s.positions
  let c := centerOf bb.1 bb.2
  let sc := scaleOf bb.1 bb.2
  { positions := scaleLoop c sc (s.positions.length + 3) s.positions 0
    normals := nrm
    indices := s.indices
    materialIndices := s.materialIndices
    materialGroups := s.materialGroups }

/-! ### MTL parsers

Two near-duplicate MTL parsers live in `src/main.js`: `parseMTL` (guards
every property assignment with `if (currentMaterial)`) and the parser
inside `loadMTL` (no guard: a property line before the first `newmtl`
dereferences `materials[null]`, which is `undefined`, and the property
assignment throws a `TypeError`). -/

/-- One tokenized line of MTL text: the directive plus the numeric payload
(`parseFloat`/`Number`/`parseInt` values of the fields after the
directive), or the name token for `newmtl`.  Anything else is `other`. -/
inductive MtlLine where
  | newmtl (name : String)
  | mNs (vals : List ℚ)
  | mKa (vals : List ℚ)
  | mKd (vals : List ℚ)
  | mKs (vals : List ℚ)
  | mKe (vals : List ℚ)
  | mNi (vals : List ℚ)
  | mD (vals : List ℚ)
  | mIllum (vals : List ℚ)
  | other
  deriving DecidableEq

/-- `parseFloat(parts[1])` (or `parseInt(parts[1])`): the first payload
value, NaN when the field is missing. -/
def scalar1 (vals : List ℚ) : EF ℚ :=
  match vals.head? with
  | some q => EF.fin q
  | none => EF.nan

/-- The material record built by `parseMTL`. -/
structure PMtlRec where
  vNs : EF ℚ
  vKa : List ℚ
  vKd : List ℚ
  vKs : List ℚ
  vKe : List ℚ
  vNi : EF ℚ
  vD : EF ℚ
  vIllum : EF ℚ
  deriving DecidableEq

/-- The fresh record `parseMTL` installs at each `newmtl`:
`{ Ns: 0, Ka: [1,1,1], Kd: [1,1,1], Ks: [0.5,0.5,0.5], Ke: [0,0,0],
Ni: 1, d: 1, illum: 2 }`. -/
def defaultPMtl : PMtlRec :=
  { vNs := EF.fin 0
    vKa := [1, 1, 1]
    vKd := [1, 1, 1]
    vKs := [1/2, 1/2, 1/2]
    vKe := [0, 0, 0]
    vNi := EF.fin 1
    vD := EF.fin 1
    vIllum := EF.fin 2 }

/-- Insert a fresh value at a key: overwrite in place when the key exists
(JS objects keep the first-insertion position), append otherwise. -/
def upsertA {α : Type} (l : List (String × α)) (k : String) (v : α) :
    List (String × α) :=
  match l with
  | [] => [(k, v)]
  | (k', v') :: rest =>
      if k' = k then (k', v) :: rest else (k', v') :: upsertA rest k v

/-- The state of the `parseMTL` scan. -/
structure PMtlState where
  materials : List (String × PMtlRec)
  current : Option String
  deriving DecidableEq

/-- Update the current material's record, when a current material exists
(`if (currentMaterial) materials[currentMaterial]... = ...`). -/
def pmtlSet (s : PMtlState) (f : PMtlRec → PMtlRec) : PMtlState :=
  match s.current with
  | none => s
  | some m => { s with materials := updateA s.materials m f }

/-- One iteration of the `parseMTL` line scan. -/
def stepPMtl (s : PMtlState) (l : MtlLine) : PMtlState :=
  match l with
  | .newmtl n =>
      { materials := upsertA s.materials n defaultPMtl, current := some n }
  | .mNs vals => pmtlSet s (fun r => { r with vNs := scalar1 vals })
  | .mKa vals => pmtlSet s (fun r => { r with vKa := vals.take 3 })
  | .mKd vals => pmtlSet s (fun r => { r with vKd := vals.take 3 })
  | .mKs vals => pmtlSet s (fun r => { r with vKs := vals.take 3 })
  | .mKe vals => pmtlSet s (fun r => { r with vKe := vals.take 3 })
  | .mNi vals => pmtlSet s (fun r => { r with vNi := scalar1 vals })
  | .mD vals => pmtlSet s (fun r => { r with vD := scalar1 vals })
  | .mIllum vals => pmtlSet s (fun r => { r with vIllum := scalar1 vals })
  | .other => s

/-- `parseMTL`: fold the scan over all lines (it can never fail). -/
def parseMTLlines (ls : List MtlLine) : PMtlState :=
  ls.foldl stepPMtl { materials := [], current := none }

/-- The material record built by the parser inside `loadMTL`. -/
structure LMtlRec where
  ambient : List ℚ
  diffuse : List ℚ
  specular : List ℚ
  shininess : EF ℚ
  opacity : EF ℚ
  refractionIndex : Option (EF ℚ)
  deriving DecidableEq

/-- The fresh record `loadMTL` installs at each `newmtl`:
`{ ambient: [1,1,1], diffuse: [0.8,0.8,0.8], specular: [0.5,0.5,0.5],
shininess: 32, opacity: 1 }` (no `refractionIndex` until an `Ni` line). -/
def defaultLMtl : LMtlRec :=
  { ambient := [1, 1, 1]
    diffuse := [4/5, 4/5, 4/5]
    specular := [1/2, 1/2, 1/2]
    shininess := EF.fin 32
    opacity := EF.fin 1
    refractionIndex := none }

/-- The state of the `loadMTL` scan. -/
structure LMtlState where
  materials : List (String × LMtlRec)
  current : Option String
  deriving DecidableEq

/-- Update the current material's record in `loadMTL`.  There is no
`if (currentMaterial)` guard: with no current material the assignment
`materials[currentMaterial].field = ...` reads `materials[null]`, which is
`undefined`, and setting a property on `undefined` throws a `TypeError`
that aborts the whole load. -/
def lmtlSet (s : LMtlState) (f : LMtlRec → LMtlRec) :
    Except String LMtlState :=
  match s.current with
  | none => .error ("TypeError: cannot set properties of undefined")
  | some m =>
      match lookupA s.materials m with
      | some _ => .ok { s with materials := updateA s.materials m f }
      | none => .error ("TypeError: cannot set properties of undefined")

/-- One iteration of the `loadMTL` line scan (`Ke`/`illum` lines have no
case in this parser and fall through to the default no-op). -/
def stepLMtl (s : LMtlState) (l : MtlLine) : Except String LMtlState :=
  match l with
  | .newmtl n =>
      .ok { materials := upsertA s.materials n defaultLMtl, current := some n }
  | .mNs vals => lmtlSet s (fun r => { r with shininess := scalar1 vals })
  | .mKa vals => lmtlSet s (fun r => { r with ambient := vals })
  | .mKd vals => lmtlSet s (fun r => { r with diffuse := vals })
  | .mKs vals => lmtlSet s (fun r => { r with specular := vals })
  | .mNi vals =>
      lmtlSet s (fun r => { r with refractionIndex := some (scalar1 vals) })
  | .mD vals => lmtlSet s (fun r => { r with opacity := scalar1 vals })
  | _ => .ok s

/-- The parser inside `loadMTL`: fold the scan over all lines, aborting
with the thrown `TypeError` when a property line precedes `newmtl`. -/
def loadMTLlines (ls : List MtlLine) : Except String LMtlState :=
  ls.foldlM stepLMtl { materials := [], current := none }

/-! ### Spec-side definitions

These follow the wording of the specification (not the source) and are
compared with the behaviour of the embedded source code. -/

/-- Spec: "emit triangles `(v0, vi, vi+1)` for `i = 1 .. k-2`" on the
(already decremented) face vertices. -/
def fanTriangles (fv : List ℤ) : List (ℤ × ℤ × ℤ) :=
  (List.range' 1 (fv.length - 2)).map
    (fun i => (fv.getD 0 0, fv.getD i 0, fv.getD (i + 1) 0))

/-- Flatten triangles into the index sequence, three indices per triangle
in order. -/
def flat3 : List (ℤ × ℤ × ℤ) → List ℤ
  | [] => []
  | t :: ts => t.1 :: t.2.1 :: t.2.2 :: flat3 ts

/-- The triangle indices a single `f` directive (with raw 1-based
vertex fields `raw`) contributes, per the spec: decrement, then fan. -/
def faceIndices (raw : List ℤ) : List ℤ :=
  flat3 (fanTriangles (raw.map (fun w => w - 1)))

/-- The whole triangle-index sequence of an OBJ input, per the spec:
the concatenation of every face's fan, in line order. -/
def indicesOfLines : List ObjLine → List ℤ
  | [] => []
  | .f raw :: ls => faceIndices raw ++ indicesOfLines ls
  | _ :: ls => indicesOfLines ls

/-- The groups chain: each group's `startIndex` equals the running end of
the previous group's range (first group starting at `n`). -/
def chainB (n : ℕ) : List (String × MGroup) → Bool
  | [] => true
  | (_, g) :: gs => decide (g.startIndex = n) && chainB (n + g.indexCount) gs

/-- Spec: the material-group ranges partition `[0, n)` exactly — in
declaration order (hence sorted by `startIndex`) each group's range abuts
the next with no gap and no overlap, and the union covers the whole
triangle-index sequence of length `n`. -/
def partitionsExactly (gs : List (String × MGroup)) (n : ℕ) : Prop :=
  chainB 0 gs = true ∧ (gs.map (fun p => p.2.indexCount)).sum = n

instance (gs : List (String × MGroup)) (n : ℕ) :
    Decidable (partitionsExactly gs n) := by
  unfold partitionsExactly; infer_instance

/-- The names of the `usemtl` directives of an OBJ input, in order. -/
def usemtlNames : List ObjLine → List String
  | [] => []
  | .usemtl m :: ls => m :: usemtlNames ls
  | _ :: ls => usemtlNames ls

/-- No `f` directive occurs before the first `usemtl` directive. -/
def noFaceBeforeUsemtl : List ObjLine → Bool
  | [] => true
  | .f _ :: _ => false
  | .usemtl _ :: _ => true
  | _ :: ls => noFaceBeforeUsemtl ls

/-- The decremented vertex indices referenced by the `f` directives of an
OBJ input (possibly with repetitions). -/
def referencedVerts : List ObjLine → List ℤ
  | [] => []
  | .f raw :: ls => raw.map (fun w => w - 1) ++ referencedVerts ls
  | _ :: ls => referencedVerts ls

/-- All raw position floats appended by the `v` directives, in order. -/
def qPositions : List ObjLine → List ℚ
  | [] => []
  | .v fields :: ls => fields ++ qPositions ls
  | _ :: ls => qPositions ls

/-! ### Claim C1 -/

/-- The OBJ input of Scenario C: three declared vertices and a face
referencing vertex 99. -/
def c1Input : List ObjLine :=
  [ObjLine.v [0, 0, 0], ObjLine.v [1, 0, 0], ObjLine.v [0, 1, 0],
   ObjLine.f [1, 2, 99]]

/-- The spec's range invariant: every triangle index addresses a declared
vertex (`index < len(positions)/3`). -/
def indicesInRange (m : Mesh K) : Prop :=
  ∀ i ∈ m.indices, 0 ≤ i ∧ i < (m.positions.length / 3 : ℕ)

/-! ### Claim C7 -/

/-- A single-point OBJ input: zero bounding-box extent on every axis. -/
def c7Input : List ObjLine := [ObjLine.v [1, 2, 3]]

/-! ### Claim C8 -/

/-- Whether an MTL line is a `newmtl` directive. -/
def MtlLine.hasNew : MtlLine → Bool
  | .newmtl _ => true
  | _ => false

/-! ### Claim C2

The invariant: in declaration order the groups chain from 0 (each group
starts where the previous one ends), their counts sum to the length of
the index sequence, the group names are distinct, and the current
material is the name of the last group (or there are no groups, no
indices and no current material). -/

/-- The last group (when any) names the current material; with no groups
there are no indices and no current material. -/
def lastOK (s : BState K) : Prop :=
  match s.materialGroups.getLast? with
  | none => s.indices = [] ∧ s.currentMaterial = none
  | some p => s.currentMaterial = some p.1

/-- The running-end/last-group invariant maintained by the scan loop when
no `usemtl` name is reused and no face precedes the first `usemtl`. -/
def MInv (s : BState K) : Prop :=
  chainB 0 s.materialGroups = true
  ∧ (s.materialGroups.map (fun p => p.2.indexCount)).sum = s.indices.length
  ∧ (s.materialGroups.map Prod.fst).Nodup
  ∧ lastOK s

/-- An OBJ input whose `usemtl A` is reused after an intervening
`usemtl B`: group A then covers `[0, 6)` while B covers `[3, 6)` — the
ranges overlap and leave `[6, 9)` uncovered. -/
def c2Input : List ObjLine :=
  [ObjLine.usemtl ("A"), ObjLine.f [1, 2, 3],
   ObjLine.usemtl ("B"), ObjLine.f [1, 2, 3],
   ObjLine.usemtl ("A"), ObjLine.f [1, 2, 3]]

/-! ### Claim C4: Newell face normals

Spec-side definitions of the face normal, compared against the embedded
code. -/

/-- Lift a finite 3-vector into JS numbers. -/
def finV3 (v : K × K × K) : V3 K := (EF.fin v.1, EF.fin v.2.1, EF.fin v.2.2)

/-- Componentwise JS addition of 3-vectors. -/
def addV3 (a b : V3 K) : V3 K :=
  (a.1.add b.1, a.2.1.add b.2.1, a.2.2.add b.2.2)

/-- The position triple of (decremented) vertex `v` in the flat
coordinate list. -/
def ptAt (rs : List K) (v : ℤ) : K × K × K :=
  (rs.getD (v.toNat * 3) 0, rs.getD (v.toNat * 3 + 1) 0,
   rs.getD (v.toNat * 3 + 2) 0)

/-- The position triples of a face's vertices. -/
def ptsOf (rs : List K) (fv : List ℤ) : List (K × K × K) := fv.map (ptAt rs)

/-- Spec: the Newell summand for the consecutive vertex pair
`(i, j = (i+1) mod k)` — `((y_i - y_j)(z_i + z_j), (z_i - z_j)(x_i + x_j),
(x_i - x_j)(y_i + y_j))`. -/
def specNewellTerm (pts : List (K × K × K)) (i : ℕ) : K × K × K :=
  let p := pts.getD i (0, 0, 0)
  let q := pts.getD ((i + 1) % pts.length) (0, 0, 0)
  ((p.2.1 - q.2.1) * (p.2.2 + q.2.2),
   (p.2.2 - q.2.2) * (p.1 + q.1),
   (p.1 - q.1) * (p.2.1 + q.2.1))

/-- Spec: the (unnormalized) Newell face normal — the sum of the summands
over all consecutive vertex pairs. -/
def specNewell (pts : List (K × K × K)) : K × K × K :=
  ((List.range pts.length).map (specNewellTerm pts)).sum

/-- Spec: normalize to unit length if the length is nonzero, else leave
the vector unchanged (zero). -/
noncomputable def specNormalizeR (m : ℝ × ℝ × ℝ) : ℝ × ℝ × ℝ :=
  if Real.sqrt (m.1 * m.1 + m.2.1 * m.2.1 + m.2.2 * m.2.2) = 0 then m
  else (m.1 / Real.sqrt (m.1 * m.1 + m.2.1 * m.2.1 + m.2.2 * m.2.2),
        m.2.1 / Real.sqrt (m.1 * m.1 + m.2.1 * m.2.1 + m.2.2 * m.2.2),
        m.2.2 / Real.sqrt (m.1 * m.1 + m.2.1 * m.2.1 + m.2.2 * m.2.2))

/-! ### Claim C5: finalized per-vertex normals -/

/-- Lift an optional finite accumulator map into JS numbers. -/
def liftT (t : ℤ → Option (K × K × K)) : ℤ → Option (V3 K) :=
  fun v => (t v).map finV3

/-- The finite-level mirror of the accumulation pass. -/
def accumK (n : K × K × K) (fv : List ℤ) (t : ℤ → Option (K × K × K)) :
    ℤ → Option (K × K × K) :=
  fv.foldl (fun t v => Function.update t v (some ((t v).getD (0, 0, 0) + n))) t

/-- Spec: the final normal of a vertex — the accumulator (default
`[0,0,1]` when the vertex was never referenced) normalized when its
length is nonzero. -/
noncomputable def specFinalNormal (o : Option (ℝ × ℝ × ℝ)) : ℝ × ℝ × ℝ :=
  specNormalizeR (o.getD (0, 0, 1))

/-- Flatten finite 3-vectors into a flat JS-number list. -/
def flatV : List (K × K × K) → List (EF K)
  | [] => []
  | v :: vs => EF.fin v.1 :: EF.fin v.2.1 :: EF.fin v.2.2 :: flatV vs

/-- Running in-range check: each face is checked against the number of
position floats parsed so far (`n`). -/
def facesInRangeGo : ℕ → List ObjLine → Bool
  | _, [] => true
  | n, ObjLine.v fields :: ls => facesInRangeGo (n + fields.length) ls
  | n, ObjLine.f raw :: ls =>
      (raw.all (fun w => decide (1 ≤ w)
          && decide ((w - 1).toNat * 3 + 2 < n)))
        && facesInRangeGo n ls
  | n, _ :: ls => facesInRangeGo n ls

/-- Every face directive references only already-declared, fully-parsed
vertex positions. -/
def facesInRange (ls : List ObjLine) : Bool := facesInRangeGo 0 ls

/-- A single degenerate (collinear) face: its Newell normal is zero, so
all three referenced vertices end with accumulator `[0,0,0]`, which the
finalization leaves as the zero vector. -/
def c5Input : List ObjLine :=
  [ObjLine.v [0, 0, 0], ObjLine.v [1, 0, 0], ObjLine.v [2, 0, 0],
   ObjLine.f [1, 2, 3]]

/-! ### Claim C6: bounding-box normalization -/

/-- One `Math.min` step of the bounding-box fold, at the finite level:
the accumulator is `none` while still at the `Infinity` seed. -/
def ominStep (o : Option K) (x : K) : Option K :=
  some (match o with | none => x | some m => min m x)

/-- One `Math.max` step of the bounding-box fold, at the finite level. -/
def omaxStep (o : Option K) (x : K) : Option K :=
  some (match o with | none => x | some m => max m x)

/-- The finite-level min fold (`none` = the `Infinity` seed). -/
def ominFold (l : List K) : Option K := l.foldl ominStep none

/-- The finite-level max fold (`none` = the `-Infinity` seed). -/
def omaxFold (l : List K) : Option K := l.foldl omaxStep none

/-- The coordinates of axis `r` (0, 1 or 2) read by the bounding-box
loop. -/
def axisCoords (rs : List K) (r : ℕ) : List K :=
  (List.range ((rs.length + 2) / 3)).map (fun k => rs.getD (3 * k + r) 0)

/-- Spec: `extent = max(maxX-minX, maxY-minY, maxZ-minZ)` over the
positions, associated as `Math.max` computes it. -/
def extent3 (rs : List K) : K :=
  max (max ((omaxFold (axisCoords rs 0)).getD 0
            - (ominFold (axisCoords rs 0)).getD 0)
           ((omaxFold (axisCoords rs 1)).getD 0
            - (ominFold (axisCoords rs 1)).getD 0))
      ((omaxFold (axisCoords rs 2)).getD 0
       - (ominFold (axisCoords rs 2)).getD 0)

/-- Spec: `center = (min+max)/2` on axis `r`. -/
def centerAx (rs : List K) (r : ℕ) : K :=
  ((ominFold (axisCoords rs r)).getD 0
    + (omaxFold (axisCoords rs r)).getD 0) / 2

/-- Spec: `scale = 2 / extent`. -/
def scaleK (rs : List K) : K := 2 / extent3 rs

/-- The min seed/accumulator as a JS number (`none` = `Infinity`). -/
def mapMin : Option K → EF K
  | none => EF.pinf
  | some m => EF.fin m

/-- The max seed/accumulator as a JS number (`none` = `-Infinity`). -/
def mapMax : Option K → EF K
  | none => EF.ninf
  | some m => EF.fin m

/-- The center component used for flat index `j` (axis `j % 3`). -/
def axC (c1 c2 c3 : K) (r : ℕ) : K :=
  if r = 0 then c1 else if r = 1 then c2 else c3

/-- Cast a rational coordinate list to the reals. -/
def castR (qs : List ℚ) : List ℝ := qs.map (fun (q : ℚ) => (q : ℝ))

/-- A unit square in the `z = 0` plane: four vertices, extent 1. -/
def c6In : List ObjLine :=
  [ObjLine.v [0, 0, 0], ObjLine.v [1, 0, 0],
   ObjLine.v [1, 1, 0], ObjLine.v [0, 1, 0]]

/-! ### Lemmas on the JS-number arithmetic -/

namespace EF

variable {K : Type} [LinearOrderedField K]

@[simp] theorem add_fin_fin (a b : K) : (fin a).add (fin b) = fin (a + b) := rfl
@[simp] theorem sub_fin_fin (a b : K) : (fin a).sub (fin b) = fin (a - b) := rfl
@[simp] theorem mul_fin_fin (a b : K) : (fin a).mul (fin b) = fin (a * b) := rfl
@[simp] theorem isPos_fin (a : K) : (fin a).isPos ↔ 0 < a := Iff.rfl
@[simp] theorem isPos_nan : (nan : EF K).isPos ↔ False := Iff.rfl
@[simp] theorem minE_fin_fin (a b : K) : (fin a).minE (fin b) = fin (min a b) := rfl
@[simp] theorem maxE_fin_fin (a b : K) : (fin a).maxE (fin b) = fin (max a b) := rfl
@[simp] theorem minE_pinf_fin (b : K) : (pinf : EF K).minE (fin b) = fin b := rfl
@[simp] theorem maxE_ninf_fin (b : K) : (ninf : EF K).maxE (fin b) = fin b := rfl
@[simp] theorem sqrtE_fin (s : K → K) (x : K) :
    sqrtE s (fin x) = if x < 0 then nan else fin (s x) := rfl
@[simp] theorem div_fin_fin (a b : K) :
    (fin a).div (fin b) =
      if b = 0 then (if a = 0 then nan else if 0 < a then pinf else ninf)
      else fin (a / b) := rfl
@[simp] theorem add_nan_right : ∀ e : EF K, e.add nan = nan
  | nan => rfl
  | pinf => rfl
  | ninf => rfl
  | fin _ => rfl
@[simp] theorem add_nan_left : ∀ e : EF K, (nan : EF K).add e = nan
  | nan => rfl
  | pinf => rfl
  | ninf => rfl
  | fin _ => rfl
@[simp] theorem sub_nan_left : ∀ e : EF K, (nan : EF K).sub e = nan
  | nan => rfl
  | pinf => rfl
  | ninf => rfl
  | fin _ => rfl
@[simp] theorem sub_nan_right : ∀ e : EF K, e.sub nan = nan
  | nan => rfl
  | pinf => rfl
  | ninf => rfl
  | fin _ => rfl
@[simp] theorem mul_nan_left : ∀ e : EF K, (nan : EF K).mul e = nan
  | nan => rfl
  | pinf => rfl
  | ninf => rfl
  | fin _ => rfl
@[simp] theorem mul_nan_right : ∀ e : EF K, e.mul nan = nan
  | nan => rfl
  | pinf => rfl
  | ninf => rfl
  | fin _ => rfl
@[simp] theorem sqrtE_nan (s : K → K) : sqrtE s (nan : EF K) = nan := rfl
@[simp] theorem minE_nan_left : ∀ e : EF K, (nan : EF K).minE e = nan
  | nan => rfl
  | pinf => rfl
  | ninf => rfl
  | fin _ => rfl
@[simp] theorem minE_nan_right : ∀ e : EF K, e.minE nan = nan
  | nan => rfl
  | pinf => rfl
  | ninf => rfl
  | fin _ => rfl
@[simp] theorem maxE_nan_left : ∀ e : EF K, (nan : EF K).maxE e = nan
  | nan => rfl
  | pinf => rfl
  | ninf => rfl
  | fin _ => rfl
@[simp] theorem maxE_nan_right : ∀ e : EF K, e.maxE nan = nan
  | nan => rfl
  | pinf => rfl
  | ninf => rfl
  | fin _ => rfl
@[simp] theorem div_fin_pinf (a : K) : (fin a).div pinf = fin 0 := rfl
@[simp] theorem mul_fin_pinf (a : K) :
    (fin a).mul pinf = if 0 < a then pinf else if a < 0 then ninf else nan := rfl
@[simp] theorem mul_pinf_fin (b : K) :
    (pinf : EF K).mul (fin b) = if 0 < b then pinf else if b < 0 then ninf else nan := rfl

end EF

/-! ### Basic facts about the scan loop -/

theorem foldl_triBody_positions (fv : List ℤ) :
    ∀ (l : List ℕ) (s : BState K), (l.foldl (triBody fv) s).positions = s.positions
  | [], _ => rfl
  | _ :: l, s => by
      rw [List.foldl_cons]
      exact foldl_triBody_positions fv l _

theorem foldl_triBody_temp (fv : List ℤ) :
    ∀ (l : List ℕ) (s : BState K), (l.foldl (triBody fv) s).tempNormals = s.tempNormals
  | [], _ => rfl
  | _ :: l, s => by
      rw [List.foldl_cons]
      exact foldl_triBody_temp fv l _

theorem foldl_triBody_current (fv : List ℤ) :
    ∀ (l : List ℕ) (s : BState K),
      (l.foldl (triBody fv) s).currentMaterial = s.currentMaterial
  | [], _ => rfl
  | _ :: l, s => by
      rw [List.foldl_cons]
      exact foldl_triBody_current fv l _

theorem triStep_positions (s : BState K) (fv : List ℤ) :
    (triStep s fv).positions = s.positions :=
  foldl_triBody_positions fv _ s

theorem triStep_temp (s : BState K) (fv : List ℤ) :
    (triStep s fv).tempNormals = s.tempNormals :=
  foldl_triBody_temp fv _ s

theorem triStep_current (s : BState K) (fv : List ℤ) :
    (triStep s fv).currentMaterial = s.currentMaterial :=
  foldl_triBody_current fv _ s

theorem foldl_triBody_indices (fv : List ℤ) :
    ∀ (l : List ℕ) (s : BState K),
      (l.foldl (triBody fv) s).indices =
        s.indices ++
          flat3 (l.map (fun i => (fv.getD 0 0, fv.getD i 0, fv.getD (i + 1) 0)))
  | [], s => by simp [flat3]
  | i :: l, s => by
      rw [List.foldl_cons, foldl_triBody_indices fv l]
      simp [triBody, flat3]

/-- The triangulation loop appends exactly the spec's fan triangles. -/
theorem triStep_indices (s : BState K) (fv : List ℤ) :
    (triStep s fv).indices = s.indices ++ flat3 (fanTriangles fv) :=
  foldl_triBody_indices fv _ s

theorem foldl_stepLine_indices (sq : K → K) :
    ∀ (ls : List ObjLine) (s : BState K),
      (ls.foldl (stepLine sq) s).indices = s.indices ++ indicesOfLines ls
  | [], s => by simp [indicesOfLines]
  | l :: ls, s => by
      rw [List.foldl_cons, foldl_stepLine_indices sq ls]
      cases l with
      | v fields => rfl
      | usemtl m => rfl
      | other => rfl
      | f raw =>
          rw [show indicesOfLines (ObjLine.f raw :: ls) =
                faceIndices raw ++ indicesOfLines ls from rfl]
          rw [show stepLine sq s (ObjLine.f raw) =
                triStep
                  { s with
                    tempNormals :=
                      accumNormals
                        (faceNormal sq s.positions (raw.map (fun w => w - 1)))
                        (raw.map (fun w => w - 1)) s.tempNormals }
                  (raw.map (fun w => w - 1)) from rfl]
          rw [triStep_indices]
          simp [faceIndices]

/-- The triangle-index sequence of the built mesh is the concatenation of
every face's fan, in line order (independently of `K` and of `sq`). -/
theorem buildMesh_indices (sq : K → K) (ls : List ObjLine) :
    (buildMesh sq ls).indices = indicesOfLines ls := by
  have h := foldl_stepLine_indices sq ls initState
  simpa [buildMesh, runLines, initState] using h

theorem foldl_stepLine_positions (sq : K → K) :
    ∀ (ls : List ObjLine) (s : BState K),
      (ls.foldl (stepLine sq) s).positions =
        s.positions ++ (qPositions ls).map (fun (q : ℚ) => EF.fin (q : K))
  | [], s => by simp [qPositions]
  | l :: ls, s => by
      rw [List.foldl_cons, foldl_stepLine_positions sq ls]
      cases l with
      | v fields => simp [stepLine, qPositions]
      | usemtl m => rfl
      | other => rfl
      | f raw =>
          rw [show stepLine sq s (ObjLine.f raw) =
                triStep
                  { s with
                    tempNormals :=
                      accumNormals
                        (faceNormal sq s.positions (raw.map (fun w => w - 1)))
                        (raw.map (fun w => w - 1)) s.tempNormals }
                  (raw.map (fun w => w - 1)) from rfl]
          rw [triStep_positions]
          rfl

/-- The raw (pre-rescaling) position sequence is exactly the `v`-line
floats in file order, all finite. -/
theorem runLines_positions (sq : K → K) (ls : List ObjLine) :
    (runLines sq ls).positions = (qPositions ls).map (fun (q : ℚ) => EF.fin (q : K)) := by
  have h := foldl_stepLine_positions sq ls initState
  simpa [runLines, initState] using h

/-! ### Fan-triangle membership -/

theorem mem_flat3_of_mem {t : ℤ × ℤ × ℤ} :
    ∀ {ts : List (ℤ × ℤ × ℤ)}, t ∈ ts →
      t.1 ∈ flat3 ts ∧ t.2.1 ∈ flat3 ts ∧ t.2.2 ∈ flat3 ts := by
  intro ts h
  induction ts with
  | nil => cases h
  | cons t' ts ih =>
      rcases List.mem_cons.mp h with h | h
      · subst h
        refine ⟨?_, ?_, ?_⟩ <;> simp [flat3]
      · obtain ⟨h1, h2, h3⟩ := ih h
        refine ⟨?_, ?_, ?_⟩ <;> simp [flat3, h1, h2, h3]

theorem mem_fanTriangles {fv : List ℤ} {i : ℕ} (h1 : 1 ≤ i)
    (h2 : i ≤ fv.length - 2) :
    (fv.getD 0 0, fv.getD i 0, fv.getD (i + 1) 0) ∈ fanTriangles fv := by
  unfold fanTriangles
  exact List.mem_map.mpr ⟨i, List.mem_range'_1.mpr ⟨h1, by omega⟩, rfl⟩

/-- Every vertex of a face with at least 3 vertices occurs somewhere in
its fan triangles. -/
theorem mem_faceIndices {raw : List ℤ} (h3 : 3 ≤ raw.length) {w : ℤ}
    (hw : w ∈ raw) : (w - 1) ∈ faceIndices raw := by
  set fv : List ℤ := raw.map (fun x => x - 1) with hfv
  have hlen : fv.length = raw.length := by simp [hfv]
  have hmem : (w - 1) ∈ fv := List.mem_map.mpr ⟨w, hw, rfl⟩
  obtain ⟨⟨j, hj⟩, hval⟩ := List.mem_iff_get.mp hmem
  have hgetD : fv.getD j 0 = w - 1 := by
    rw [List.getD_eq_getElem fv 0 hj]
    exact hval
  have hlen3 : 3 ≤ fv.length := by omega
  unfold faceIndices
  rw [← hfv]
  rcases Nat.eq_zero_or_pos j with hj0 | hjpos
  · subst hj0
    have ht := @mem_fanTriangles fv 1 le_rfl (by omega)
    have h1 := (mem_flat3_of_mem ht).1
    rw [show ((fv.getD 0 0, fv.getD 1 0, fv.getD 2 0)).1 = fv.getD 0 0
      from rfl, hgetD] at h1
    exact h1
  · rcases le_or_lt j (fv.length - 2) with hj2 | hj2
    · have ht := @mem_fanTriangles fv j hjpos hj2
      have h1 := (mem_flat3_of_mem ht).2.1
      rw [show ((fv.getD 0 0, fv.getD j 0, fv.getD (j + 1) 0)).2.1
        = fv.getD j 0 from rfl, hgetD] at h1
      exact h1
    · have ht := @mem_fanTriangles fv (fv.length - 2)
        (by omega) le_rfl
      have h1 := (mem_flat3_of_mem ht).2.2
      rw [show ((fv.getD 0 0, fv.getD (fv.length - 2) 0,
          fv.getD (fv.length - 2 + 1) 0)).2.2
        = fv.getD (fv.length - 2 + 1) 0 from rfl,
        show fv.length - 2 + 1 = j by omega, hgetD] at h1
      exact h1

theorem faceIndices_subset_indicesOfLines {raw : List ℤ} :
    ∀ {ls : List ObjLine}, ObjLine.f raw ∈ ls →
      faceIndices raw ⊆ indicesOfLines ls := by
  intro ls h
  induction ls with
  | nil => cases h
  | cons l ls ih =>
      rcases List.mem_cons.mp h with h | h
      · subst h
        rw [show indicesOfLines (ObjLine.f raw :: ls) =
              faceIndices raw ++ indicesOfLines ls from rfl]
        exact List.subset_append_left _ _
      · intro x hx
        have hsub := ih h hx
        cases l with
        | f raw' =>
            rw [show indicesOfLines (ObjLine.f raw' :: ls) =
                  faceIndices raw' ++ indicesOfLines ls from rfl]
            exact List.mem_append_right _ hsub
        | v fields => exact hsub
        | usemtl m => exact hsub
        | other => exact hsub

/-- C1, counterexample.  On Scenario C's input (`f 1 2 99` with only 3
vertices) `loadOBJ` does not fail: it returns a mesh whose index sequence
contains the decremented out-of-range index 98, violating the range
invariant — there is no ParseError path in the source. -/
theorem c1_counterexample :
    (buildMesh (K := ℝ) Real.sqrt c1Input).indices = [0, 1, 98] ∧
      (buildMesh (K := ℝ) Real.sqrt c1Input).positions.length = 9 ∧
      ¬ indicesInRange (buildMesh (K := ℝ) Real.sqrt c1Input) := by
  refine ⟨rfl, rfl, ?_⟩
  intro h
  have h98 := h 98 (by rw [show (buildMesh (K := ℝ) Real.sqrt c1Input).indices
    = [0, 1, 98] from rfl]; simp)
  rw [show (buildMesh (K := ℝ) Real.sqrt c1Input).positions.length = 9 from rfl]
    at h98
  omega

/-- C1, amended.  `build` never fails: a face directive referencing any
vertex index — in range or not — always yields a mesh, and every one of
its (decremented) indices appears verbatim in the returned triangle-index
sequence whenever the face has at least 3 vertices. -/
theorem c1_out_of_range_index_emitted (sq : K → K) (ls : List ObjLine)
    (raw : List ℤ) (w : ℤ) (hmem : ObjLine.f raw ∈ ls)
    (h3 : 3 ≤ raw.length) (hw : w ∈ raw) :
    (w - 1) ∈ (buildMesh sq ls).indices := by
  rw [buildMesh_indices]
  exact faceIndices_subset_indicesOfLines hmem (mem_faceIndices h3 hw)

/-- Witness for C1's amended theorem at Scenario C's input. -/
theorem c1_witness :
    (ObjLine.f [1, 2, 99] ∈ c1Input ∧ 3 ≤ ([1, 2, 99] : List ℤ).length ∧
        (99 : ℤ) ∈ ([1, 2, 99] : List ℤ)) ∧
      ((99 : ℤ) - 1) ∈ (buildMesh (K := ℝ) Real.sqrt c1Input).indices :=
  ⟨⟨by simp [c1Input], by simp, by simp⟩,
    c1_out_of_range_index_emitted Real.sqrt c1Input [1, 2, 99] 99
      (by simp [c1Input]) (by simp) (by simp)⟩

/-- C7: on a zero-extent mesh the source raises nothing.  The computed
scale is `2 / 0 = Infinity` and every rescaled position is
`0 * Infinity = NaN`; `loadOBJ` silently returns the NaN mesh. -/
theorem c7_zero_extent_silent_nan :
    scaleOf (bbox (runLines (K := ℝ) Real.sqrt c7Input).positions).1
        (bbox (runLines (K := ℝ) Real.sqrt c7Input).positions).2 = EF.pinf ∧
      (buildMesh (K := ℝ) Real.sqrt c7Input).positions
        = [EF.nan, EF.nan, EF.nan] := by
  constructor
  · simp [c7Input, runLines, stepLine, initState, bbox, bboxBody, scaleOf, getn,
      List.range_succ, List.getD, EF.minE, EF.maxE, EF.sub, EF.add, EF.div]
  · simp [c7Input, buildMesh, runLines, stepLine, initState, bbox, bboxBody, centerOf,
      scaleOf, scaleLoop, scaleStep, setp, getn, List.range_succ, List.getD,
      EF.minE, EF.maxE, EF.sub, EF.add, EF.div, EF.mul]

/-! ### Claim C9 -/

/-- C9, counterexample.  A `v` line with only two numeric fields: the
builder appends exactly two floats (not three) and does not fail; after
the final rescaling pass the array has even been NaN-padded to length 3. -/
theorem c9_counterexample :
    (stepLine (K := ℝ) Real.sqrt initState (ObjLine.v [1, 2])).positions
        = [EF.fin 1, EF.fin 2] ∧
      (buildMesh (K := ℝ) Real.sqrt [ObjLine.v [1, 2]]).positions
        = [EF.nan, EF.nan, EF.nan] := by
  constructor
  · simp [stepLine, initState]
  · simp [buildMesh, runLines, stepLine, initState, bbox, bboxBody, centerOf, scaleOf,
      scaleLoop, scaleStep, setp, getn, List.range_succ, List.getD,
      EF.minE, EF.maxE, EF.sub, EF.add, EF.div, EF.mul]

/-- C9, amended.  A `v` directive appends exactly one float per numeric
field (3 only for well-formed lines) and never fails, touching no other
builder state; consequently the raw position sequence is the
concatenation of all `v`-line fields and its length is their total
count. -/
theorem c9_v_appends_fields (sq : K → K) (s : BState K) (fields : List ℚ)
    (ls : List ObjLine) :
    (stepLine sq s (ObjLine.v fields)).positions
        = s.positions ++ fields.map (fun (q : ℚ) => EF.fin (q : K)) ∧
      (stepLine sq s (ObjLine.v fields)).indices = s.indices ∧
      (runLines sq ls).positions.length = (qPositions ls).length :=
  ⟨rfl, rfl, by rw [runLines_positions]; exact List.length_map _ _⟩

/-! ### Assoc-list lemmas -/

theorem lookupA_updateA_self {α : Type} (l : List (String × α)) (k : String)
    (f : α → α) : lookupA (updateA l k f) k = (lookupA l k).map f := by
  induction l with
  | nil => rfl
  | cons p rest ih =>
      obtain ⟨k', v⟩ := p
      by_cases h : k' = k
      · simp [updateA, lookupA, h]
      · simp [updateA, lookupA, h, ih]

theorem lookupA_updateA_ne {α : Type} (l : List (String × α)) (k k' : String)
    (f : α → α) (h : k' ≠ k) : lookupA (updateA l k f) k' = lookupA l k' := by
  induction l with
  | nil => rfl
  | cons p rest ih =>
      obtain ⟨k0, v⟩ := p
      by_cases h0 : k0 = k
      · subst h0
        have hne : ¬ (k0 = k') := fun e => h e.symm
        simp [updateA, lookupA, hne]
      · simp [updateA, lookupA, h0, ih]

theorem updateA_keys {α : Type} (l : List (String × α)) (k : String)
    (f : α → α) : (updateA l k f).map Prod.fst = l.map Prod.fst := by
  induction l with
  | nil => rfl
  | cons p rest ih =>
      obtain ⟨k0, v⟩ := p
      by_cases h0 : k0 = k
      · simp [updateA, h0]
      · simp [updateA, h0, ih]

theorem lookupA_eq_none {α : Type} (l : List (String × α)) (k : String) :
    lookupA l k = none ↔ k ∉ l.map Prod.fst := by
  induction l with
  | nil => simp [lookupA]
  | cons p rest ih =>
      obtain ⟨k0, v⟩ := p
      by_cases h0 : k0 = k
      · simp [lookupA, h0]
      · simp only [lookupA, if_neg h0, ih, List.map_cons, List.mem_cons]
        constructor
        · rintro hk (h1 | h2)
          · exact h0 h1.symm
          · exact hk h2
        · exact fun hk h2 => hk (Or.inr h2)

theorem lookupA_append_right {α : Type} (l1 l2 : List (String × α))
    (k : String) (h : lookupA l1 k = none) :
    lookupA (l1 ++ l2) k = lookupA l2 k := by
  induction l1 with
  | nil => rfl
  | cons p rest ih =>
      obtain ⟨k0, v⟩ := p
      by_cases h0 : k0 = k
      · simp [lookupA, h0] at h
      · simp only [lookupA, h0, if_false, List.cons_append] at h ⊢
        exact ih h

theorem lookupA_upsertA_self {α : Type} (l : List (String × α)) (k : String)
    (v : α) : lookupA (upsertA l k v) k = some v := by
  induction l with
  | nil => simp [upsertA, lookupA]
  | cons p rest ih =>
      obtain ⟨k0, v0⟩ := p
      by_cases h0 : k0 = k
      · simp [upsertA, lookupA, h0]
      · simp [upsertA, lookupA, h0, ih]

/-! ### Claim C3 -/

theorem flat3_length : ∀ ts : List (ℤ × ℤ × ℤ), (flat3 ts).length = 3 * ts.length
  | [] => rfl
  | _ :: ts => by
      rw [show flat3 (_ :: ts) = _ :: _ :: _ :: flat3 ts from rfl]
      simp [flat3_length ts]
      ring

theorem foldl_triBody_group_count (fv : List ℤ) (m : String) :
    ∀ (l : List ℕ) (s : BState K) (g : MGroup),
      s.currentMaterial = some m → lookupA s.materialGroups m = some g →
      lookupA (l.foldl (triBody fv) s).materialGroups m
        = some ⟨g.startIndex, g.indexCount + 3 * l.length⟩
  | [], s, g, _, hg => by simpa using hg
  | i :: l, s, g, hc, hg => by
      rw [List.foldl_cons]
      have hstep : lookupA (triBody fv s i).materialGroups m
          = some ⟨g.startIndex, g.indexCount + 3⟩ := by
        rw [show (triBody fv s i).materialGroups =
              (match s.currentMaterial with
               | none => s.materialGroups
               | some m' => updateA s.materialGroups m'
                   (fun g => { g with indexCount := g.indexCount + 3 })) from rfl,
            hc]
        rw [lookupA_updateA_self, hg]
        rfl
      have hcur : (triBody fv s i).currentMaterial = some m := hc
      have := foldl_triBody_group_count fv m l (triBody fv s i)
        ⟨g.startIndex, g.indexCount + 3⟩ hcur hstep
      rw [this]
      congr 2
      simp only [List.length_cons]
      ring

/-- C3: a face directive with `k ≥ 3` (1-based) vertex fields emits
exactly `k-2` fan triangles `(v0, vi, vi+1)` on the decremented vertices,
appends their `3(k-2)` indices in that order to the global triangle-index
sequence, every triangle sharing vertex 0 of the face, and — when a
current material context exists (with its group present, as `usemtl`
guarantees) — grows that group's `indexCount` by 3 per triangle. -/
theorem c3_fan_triangulation (sq : K → K) (s : BState K) (raw : List ℤ)
    ( _h3 : 3 ≤ raw.length) :
    (stepLine sq s (ObjLine.f raw)).indices
        = s.indices ++ flat3 (fanTriangles (raw.map (fun w => w - 1)))
    ∧ (fanTriangles (raw.map (fun w => w - 1))).length = raw.length - 2
    ∧ (∀ t ∈ fanTriangles (raw.map (fun w => w - 1)),
        t.1 = (raw.map (fun w => w - 1)).getD 0 0)
    ∧ (flat3 (fanTriangles (raw.map (fun w => w - 1)))).length
        = 3 * (raw.length - 2)
    ∧ (∀ (m : String) (g : MGroup), s.currentMaterial = some m →
        lookupA s.materialGroups m = some g →
        lookupA (stepLine sq s (ObjLine.f raw)).materialGroups m
          = some ⟨g.startIndex, g.indexCount + 3 * (raw.length - 2)⟩) := by
  have hlen : (raw.map (fun w => w - 1)).length = raw.length :=
    List.length_map _ _
  refine ⟨?_, ?_, ?_, ?_, ?_⟩
  · rw [show stepLine sq s (ObjLine.f raw) =
          triStep
            { s with
              tempNormals :=
                accumNormals
                  (faceNormal sq s.positions (raw.map (fun w => w - 1)))
                  (raw.map (fun w => w - 1)) s.tempNormals }
            (raw.map (fun w => w - 1)) from rfl, triStep_indices]
  · unfold fanTriangles
    rw [List.length_map, List.length_range', hlen]
  · intro t ht
    obtain ⟨i, _, hi⟩ := List.mem_map.mp ht
    rw [← hi]
  · rw [flat3_length]
    unfold fanTriangles
    rw [List.length_map, List.length_range', hlen]
  · intro m g hc hg
    have happ := foldl_triBody_group_count (K := K)
      (raw.map (fun w => w - 1)) m
      (List.range' 1 ((raw.map (fun w => w - 1)).length - 2))
      { s with
        tempNormals :=
          accumNormals
            (faceNormal sq s.positions (raw.map (fun w => w - 1)))
            (raw.map (fun w => w - 1)) s.tempNormals }
      g hc hg
    rw [show stepLine sq s (ObjLine.f raw) =
          triStep
            { s with
              tempNormals :=
                accumNormals
                  (faceNormal sq s.positions (raw.map (fun w => w - 1)))
                  (raw.map (fun w => w - 1)) s.tempNormals }
            (raw.map (fun w => w - 1)) from rfl]
    unfold triStep
    rw [happ, List.length_range', hlen]

/-- Witness for C3: a quad face (`f 1 2 3 4`) processed with a current
material whose group is open. -/
theorem c3_witness :
    (3 ≤ ([1, 2, 3, 4] : List ℤ).length) ∧
      ((stepLine (K := ℚ) (fun _ => 0)
            (runLines (K := ℚ) (fun _ => 0) [ObjLine.usemtl ("A")])
            (ObjLine.f [1, 2, 3, 4])).indices
          = (runLines (K := ℚ) (fun _ => 0) [ObjLine.usemtl ("A")]).indices ++
              flat3 (fanTriangles (([1, 2, 3, 4] : List ℤ).map (fun w => w - 1)))
        ∧ (fanTriangles (([1, 2, 3, 4] : List ℤ).map (fun w => w - 1))).length
            = ([1, 2, 3, 4] : List ℤ).length - 2
        ∧ (∀ t ∈ fanTriangles (([1, 2, 3, 4] : List ℤ).map (fun w => w - 1)),
            t.1 = (([1, 2, 3, 4] : List ℤ).map (fun w => w - 1)).getD 0 0)
        ∧ (flat3 (fanTriangles (([1, 2, 3, 4] : List ℤ).map (fun w => w - 1)))).length
            = 3 * (([1, 2, 3, 4] : List ℤ).length - 2)
        ∧ (∀ (m : String) (g : MGroup),
            (runLines (K := ℚ) (fun _ => 0) [ObjLine.usemtl ("A")]).currentMaterial
              = some m →
            lookupA (runLines (K := ℚ) (fun _ => 0)
                [ObjLine.usemtl ("A")]).materialGroups m = some g →
            lookupA (stepLine (K := ℚ) (fun _ => 0)
                (runLines (K := ℚ) (fun _ => 0) [ObjLine.usemtl ("A")])
                (ObjLine.f [1, 2, 3, 4])).materialGroups m
              = some ⟨g.startIndex, g.indexCount + 3 * (([1, 2, 3, 4] : List ℤ).length - 2)⟩)) :=
  ⟨by decide,
    c3_fan_triangulation (K := ℚ) (fun _ => 0)
      (runLines (K := ℚ) (fun _ => 0) [ObjLine.usemtl ("A")])
      [1, 2, 3, 4] (by decide)⟩

/-! ### Claim C10 -/

/-- C10: a `newmtl` directive — in particular a second occurrence of an
already-defined name — always installs a fresh all-defaults record at
that name, discarding every property assigned before it.  This holds for
`parseMTL` unconditionally and for `loadMTL`'s parser whenever it
completes. -/
theorem c10_second_newmtl_resets (pre : List MtlLine) (n : String) :
    lookupA (parseMTLlines (pre ++ [MtlLine.newmtl n])).materials n
        = some defaultPMtl
    ∧ ∀ st : LMtlState, loadMTLlines (pre ++ [MtlLine.newmtl n]) = .ok st →
        lookupA st.materials n = some defaultLMtl := by
  constructor
  · rw [parseMTLlines, List.foldl_append]
    rw [List.foldl_cons, List.foldl_nil]
    rw [show stepPMtl (List.foldl stepPMtl { materials := [], current := none } pre)
          (MtlLine.newmtl n)
        = { materials :=
              upsertA (List.foldl stepPMtl { materials := [], current := none } pre).materials
                n defaultPMtl,
            current := some n } from rfl]
    exact lookupA_upsertA_self _ n defaultPMtl
  · intro st h
    rw [loadMTLlines, List.foldlM_append] at h
    cases hpre : List.foldlM stepLMtl
        ({ materials := [], current := none } : LMtlState) pre with
    | error e =>
        rw [hpre] at h
        simp [Bind.bind, Except.bind] at h
    | ok st' =>
        rw [hpre] at h
        have h2 : stepLMtl st' (MtlLine.newmtl n) = .ok st := by
          simpa [Bind.bind, Except.bind, List.foldlM] using h
        have h3 : ({ materials := upsertA st'.materials n defaultLMtl,
                      current := some n } : LMtlState) = st :=
          Except.ok.inj h2
        rw [← h3]
        exact lookupA_upsertA_self _ n defaultLMtl

/-- Witness for C10: a material assigned `Kd 1 0 0` and then re-declared;
both parsers report the all-defaults record afterwards. -/
theorem c10_witness :
    lookupA (parseMTLlines
        ([MtlLine.newmtl ("M"), MtlLine.mKd [1, 0, 0]] ++
          [MtlLine.newmtl ("M")])).materials ("M") = some defaultPMtl
    ∧ lookupA
        (LMtlState.mk [(("M"), defaultLMtl)] (some ("M"))).materials ("M")
        = some defaultLMtl := by
  refine ⟨(c10_second_newmtl_resets
      [MtlLine.newmtl ("M"), MtlLine.mKd [1, 0, 0]] ("M")).1, ?_⟩
  exact (c10_second_newmtl_resets
      [MtlLine.newmtl ("M"), MtlLine.mKd [1, 0, 0]] ("M")).2
    (LMtlState.mk [(("M"), defaultLMtl)] (some ("M"))) rfl

theorem stepPMtl_no_current (s : PMtlState) (hcur : s.current = none)
    (l : MtlLine) (h : l.hasNew = false) : stepPMtl s l = s := by
  cases l with
  | newmtl n => simp [MtlLine.hasNew] at h
  | mNs vals => simp [stepPMtl, pmtlSet, hcur]
  | mKa vals => simp [stepPMtl, pmtlSet, hcur]
  | mKd vals => simp [stepPMtl, pmtlSet, hcur]
  | mKs vals => simp [stepPMtl, pmtlSet, hcur]
  | mKe vals => simp [stepPMtl, pmtlSet, hcur]
  | mNi vals => simp [stepPMtl, pmtlSet, hcur]
  | mD vals => simp [stepPMtl, pmtlSet, hcur]
  | mIllum vals => simp [stepPMtl, pmtlSet, hcur]
  | other => rfl

theorem foldl_stepPMtl_no_newmtl :
    ∀ (pre : List MtlLine), (∀ l ∈ pre, l.hasNew = false) →
      pre.foldl stepPMtl { materials := [], current := none }
        = { materials := [], current := none }
  | [], _ => rfl
  | l :: pre, h => by
      rw [List.foldl_cons,
        stepPMtl_no_current _ rfl l (h l (List.mem_cons_self _ _))]
      exact foldl_stepPMtl_no_newmtl pre
        (fun l' hl' => h l' (List.mem_cons_of_mem _ hl'))

/-- C8, counterexample.  The claim covers both MTL parsers; the one inside
`loadMTL` has no `if (currentMaterial)` guard, so a `Ka` line before any
`newmtl` throws (`materials[null].ambient = ...` on `undefined`) and the
parse fails — while `parseMTL` on the same input succeeds with an empty
map. -/
theorem c8_counterexample :
    loadMTLlines [MtlLine.mKa [1, 0, 0]]
        = Except.error ("TypeError: cannot set properties of undefined")
    ∧ parseMTLlines [MtlLine.mKa [1, 0, 0]]
        = { materials := [], current := none } :=
  ⟨rfl, rfl⟩

/-- C8, amended.  `parseMTL` (the guarded parser) never fails — it is a
total function — and every property line before the first `newmtl` is
silently ignored, leaving the material map unchanged; the parser inside
`loadMTL`, by contrast, aborts with a TypeError on such a line. -/
theorem c8_parseMTL_ignores_leading_props (pre rest : List MtlLine)
    (h : ∀ l ∈ pre, l.hasNew = false) :
    parseMTLlines (pre ++ rest) = parseMTLlines rest
    ∧ (parseMTLlines pre).materials = [] := by
  have key := foldl_stepPMtl_no_newmtl pre h
  constructor
  · rw [parseMTLlines, List.foldl_append, key]
    rfl
  · rw [parseMTLlines, key]

theorem lastOK_of_concat (s : BState K) (gs : List (String × MGroup))
    (m : String) (g : MGroup) (hdec : s.materialGroups = gs ++ [(m, g)])
    (hc : s.currentMaterial = some m) : lastOK s := by
  unfold lastOK
  rw [hdec, List.getLast?_concat]
  exact hc

theorem lastOK_concat_elim (s : BState K) (gs : List (String × MGroup))
    (m : String) (g : MGroup) (hdec : s.materialGroups = gs ++ [(m, g)])
    (h : lastOK s) : s.currentMaterial = some m := by
  unfold lastOK at h
  rw [hdec, List.getLast?_concat] at h
  exact h

theorem chainB_concat (m : String) (g : MGroup) :
    ∀ (gs : List (String × MGroup)) (n : ℕ),
      chainB n (gs ++ [(m, g)])
        = (chainB n gs &&
            decide (g.startIndex
              = n + (gs.map (fun p => p.2.indexCount)).sum))
  | [], n => by simp [chainB]
  | (m0, g0) :: gs, n => by
      rw [List.cons_append,
        show chainB n ((m0, g0) :: (gs ++ [(m, g)]))
          = (decide (g0.startIndex = n)
              && chainB (n + g0.indexCount) (gs ++ [(m, g)])) from rfl,
        chainB_concat m g gs (n + g0.indexCount),
        show chainB n ((m0, g0) :: gs)
          = (decide (g0.startIndex = n)
              && chainB (n + g0.indexCount) gs) from rfl]
      simp [Bool.and_assoc, Nat.add_assoc]

theorem updateA_concat_fresh (m : String) (g : MGroup)
    (f : MGroup → MGroup) :
    ∀ (l1 : List (String × MGroup)), m ∉ l1.map Prod.fst →
      updateA (l1 ++ [(m, g)]) m f = l1 ++ [(m, f g)]
  | [], _ => by simp [updateA]
  | (k0, v) :: l1, h => by
      have hne : k0 ≠ m := by
        intro e
        exact h (by simp [e])
      have htail : m ∉ l1.map Prod.fst := by
        intro hm
        exact h (by simp [hm])
      rw [List.cons_append, List.cons_append,
        show updateA ((k0, v) :: (l1 ++ [(m, g)])) m f
          = if k0 = m then (k0, f v) :: (l1 ++ [(m, g)])
            else (k0, v) :: updateA (l1 ++ [(m, g)]) m f from rfl,
        if_neg hne, updateA_concat_fresh m g f l1 htail]

/-- One triangulation iteration preserves the invariant (and the group
keys) when at least one group exists. -/
theorem triBody_MInv (fv : List ℤ) (i : ℕ) (s : BState K)
    (h : MInv s) (hne : s.materialGroups ≠ []) :
    MInv (triBody fv s i)
    ∧ (triBody fv s i).materialGroups.map Prod.fst
        = s.materialGroups.map Prod.fst := by
  obtain ⟨hchain, hsum, hnd, hlast⟩ := h
  rcases List.eq_nil_or_concat s.materialGroups with hnil | ⟨l1, ⟨m, g⟩, hdec⟩
  · exact absurd hnil hne
  · rw [List.concat_eq_append] at hdec
    have hcur : s.currentMaterial = some m :=
      lastOK_concat_elim s l1 m g hdec hlast
    have hfresh : m ∉ l1.map Prod.fst := by
      have hnd2 := hnd
      rw [hdec] at hnd2
      simp only [List.map_append, List.map_cons, List.map_nil] at hnd2
      have hdisj := (List.nodup_append.mp hnd2).2.2
      intro hm
      exact hdisj hm (by simp)
    have hgroups : (triBody fv s i).materialGroups
        = l1 ++ [(m, { g with indexCount := g.indexCount + 3 })] := by
      rw [show (triBody fv s i).materialGroups =
            (match s.currentMaterial with
             | none => s.materialGroups
             | some m2 => updateA s.materialGroups m2
                 (fun g => { g with indexCount := g.indexCount + 3 }))
            from rfl,
          hcur, hdec]
      exact updateA_concat_fresh m g _ l1 hfresh
    have hidx : (triBody fv s i).indices.length = s.indices.length + 3 := by
      rw [show (triBody fv s i).indices
            = s.indices ++ [fv.getD 0 0, fv.getD i 0, fv.getD (i + 1) 0]
            from rfl]
      simp
    have hcur2 : (triBody fv s i).currentMaterial = s.currentMaterial := rfl
    refine ⟨⟨?_, ?_, ?_, ?_⟩, ?_⟩
    · rw [hgroups, chainB_concat]
      rw [hdec, chainB_concat] at hchain
      simpa using hchain
    · rw [hgroups, hidx]
      rw [hdec] at hsum
      simp only [List.map_append, List.map_cons, List.map_nil,
        List.sum_append, List.sum_cons, List.sum_nil] at hsum ⊢
      omega
    · rw [hgroups]
      rw [hdec] at hnd
      simpa using hnd
    · exact lastOK_of_concat _ l1 m _ hgroups (hcur2.trans hcur)
    · rw [hgroups, hdec]
      simp

/-- The whole triangulation loop preserves the invariant and the group
keys when at least one group exists. -/
theorem foldl_triBody_MInv (fv : List ℤ) :
    ∀ (l : List ℕ) (s : BState K), MInv s → s.materialGroups ≠ [] →
      MInv (l.foldl (triBody fv) s)
      ∧ (l.foldl (triBody fv) s).materialGroups.map Prod.fst
          = s.materialGroups.map Prod.fst
  | [], _, h, _ => ⟨h, rfl⟩
  | i :: l, s, h, hne => by
      rw [List.foldl_cons]
      obtain ⟨h1, hkeys⟩ := triBody_MInv fv i s h hne
      have hne2 : (triBody fv s i).materialGroups ≠ [] := by
        intro e
        rw [e] at hkeys
        exact hne (List.map_eq_nil_iff.mp hkeys.symm)
      obtain ⟨h2, hkeys2⟩ := foldl_triBody_MInv fv l (triBody fv s i) h1 hne2
      exact ⟨h2, hkeys2.trans hkeys⟩

/-- The scan loop preserves the invariant when the remaining `usemtl`
names are fresh and pairwise distinct and no face precedes the first
`usemtl`. -/
theorem foldl_stepLine_MInv (sq : K → K) :
    ∀ (ls : List ObjLine) (s : BState K), MInv s →
      (∀ m ∈ usemtlNames ls, m ∉ s.materialGroups.map Prod.fst) →
      (usemtlNames ls).Nodup →
      (s.materialGroups = [] → noFaceBeforeUsemtl ls = true) →
      MInv (ls.foldl (stepLine sq) s)
  | [], _, h, _, _, _ => h
  | ObjLine.v fields :: ls, s, h, hfresh, hnd, hface => by
      rw [List.foldl_cons]
      exact foldl_stepLine_MInv sq ls _ h hfresh hnd hface
  | ObjLine.other :: ls, s, h, hfresh, hnd, hface => by
      rw [List.foldl_cons]
      exact foldl_stepLine_MInv sq ls _ h hfresh hnd hface
  | ObjLine.usemtl m :: ls, s, h, hfresh, hnd, hface => by
      rw [List.foldl_cons]
      obtain ⟨hchain, hsum, hnodup, hlast⟩ := h
      have hm : m ∉ s.materialGroups.map Prod.fst :=
        hfresh m (by rw [show usemtlNames (ObjLine.usemtl m :: ls)
          = m :: usemtlNames ls from rfl]; exact List.mem_cons_self _ _)
      have hnone : lookupA s.materialGroups m = none :=
        (lookupA_eq_none _ _).mpr hm
      have hnd2 : (m :: usemtlNames ls).Nodup := by
        rw [show usemtlNames (ObjLine.usemtl m :: ls)
          = m :: usemtlNames ls from rfl] at hnd
        exact hnd
      have hstep : stepLine sq s (ObjLine.usemtl m)
          = { s with
              currentMaterial := some m
              materialGroups :=
                s.materialGroups ++ [(m, ⟨s.indices.length, 0⟩)] } := by
        rw [show stepLine sq s (ObjLine.usemtl m)
            = { s with
                currentMaterial := some m
                materialGroups :=
                  match lookupA s.materialGroups m with
                  | some _ => s.materialGroups
                  | none =>
                      s.materialGroups ++ [(m, ⟨s.indices.length, 0⟩)] }
            from rfl, hnone]
      rw [hstep]
      apply foldl_stepLine_MInv sq ls
      · refine ⟨?_, ?_, ?_, ?_⟩
        · rw [show ({ s with
                currentMaterial := some m
                materialGroups :=
                  s.materialGroups ++ [(m, ⟨s.indices.length, 0⟩)]
              } : BState K).materialGroups
              = s.materialGroups ++ [(m, ⟨s.indices.length, 0⟩)] from rfl,
            chainB_concat, hchain, hsum]
          simp
        · simp only [List.map_append, List.map_cons, List.map_nil,
            List.sum_append, List.sum_cons, List.sum_nil]
          simpa using hsum
        · simp only [List.map_append, List.map_cons, List.map_nil]
          rw [List.nodup_append]
          refine ⟨hnodup, List.nodup_singleton m, ?_⟩
          intro a ha hb
          rw [List.mem_singleton.mp hb] at ha
          exact hm ha
        · exact lastOK_of_concat _ s.materialGroups m _ rfl rfl
      · intro m2 hm2
        simp only [List.map_append, List.map_cons, List.map_nil,
          List.mem_append, List.mem_singleton]
        rintro (hin | heq)
        · exact hfresh m2 (by
            rw [show usemtlNames (ObjLine.usemtl m :: ls)
              = m :: usemtlNames ls from rfl]
            exact List.mem_cons_of_mem _ hm2) hin
        · rw [heq] at hm2
          exact (List.nodup_cons.mp hnd2).1 hm2
      · exact (List.nodup_cons.mp hnd2).2
      · intro habs
        exact absurd habs (by simp)
  | ObjLine.f raw :: ls, s, h, hfresh, hnd, hface => by
      rw [List.foldl_cons]
      by_cases hgs : s.materialGroups = []
      · have hcontra := hface hgs
        simp [noFaceBeforeUsemtl] at hcontra
      · have hstep : stepLine sq s (ObjLine.f raw)
            = triStep
                { s with
                  tempNormals :=
                    accumNormals
                      (faceNormal sq s.positions (raw.map (fun w => w - 1)))
                      (raw.map (fun w => w - 1)) s.tempNormals }
                (raw.map (fun w => w - 1)) := rfl
        have h1 : MInv ({ s with
            tempNormals :=
              accumNormals
                (faceNormal sq s.positions (raw.map (fun w => w - 1)))
                (raw.map (fun w => w - 1)) s.tempNormals } : BState K) := h
        obtain ⟨h2, hkeys⟩ := foldl_triBody_MInv (raw.map (fun w => w - 1))
          (List.range' 1 ((raw.map (fun w => w - 1)).length - 2))
          { s with
            tempNormals :=
              accumNormals
                (faceNormal sq s.positions (raw.map (fun w => w - 1)))
                (raw.map (fun w => w - 1)) s.tempNormals } h1 hgs
        rw [hstep]
        apply foldl_stepLine_MInv sq ls
        · exact h2
        · intro m2 hm2
          rw [show triStep
                { s with
                  tempNormals :=
                    accumNormals
                      (faceNormal sq s.positions (raw.map (fun w => w - 1)))
                      (raw.map (fun w => w - 1)) s.tempNormals }
                (raw.map (fun w => w - 1))
              = (List.range' 1 ((raw.map (fun w => w - 1)).length - 2)).foldl
                  (triBody (raw.map (fun w => w - 1)))
                  { s with
                    tempNormals :=
                      accumNormals
                        (faceNormal sq s.positions (raw.map (fun w => w - 1)))
                        (raw.map (fun w => w - 1)) s.tempNormals } from rfl,
            hkeys]
          exact hfresh m2 hm2
        · exact hnd
        · intro habs
          rw [show triStep
                { s with
                  tempNormals :=
                    accumNormals
                      (faceNormal sq s.positions (raw.map (fun w => w - 1)))
                      (raw.map (fun w => w - 1)) s.tempNormals }
                (raw.map (fun w => w - 1))
              = (List.range' 1 ((raw.map (fun w => w - 1)).length - 2)).foldl
                  (triBody (raw.map (fun w => w - 1)))
                  { s with
                    tempNormals :=
                      accumNormals
                        (faceNormal sq s.positions (raw.map (fun w => w - 1)))
                        (raw.map (fun w => w - 1)) s.tempNormals } from rfl]
            at habs
          rw [habs] at hkeys
          exact absurd (List.map_eq_nil_iff.mp hkeys.symm) hgs

/-- C2, counterexample.  Although the first `usemtl` precedes every face,
re-declaring material A after B makes the second A-run extend the old
group in place: the groups are A = `{start 0, count 6}`, B =
`{start 3, count 3}` over 9 indices, which is no partition. -/
theorem c2_counterexample :
    (buildMesh (K := ℝ) Real.sqrt c2Input).materialGroups
        = [(("A"), ⟨0, 6⟩), (("B"), ⟨3, 3⟩)]
    ∧ (buildMesh (K := ℝ) Real.sqrt c2Input).indices.length = 9
    ∧ ¬ partitionsExactly
        (buildMesh (K := ℝ) Real.sqrt c2Input).materialGroups
        (buildMesh (K := ℝ) Real.sqrt c2Input).indices.length := by
  refine ⟨rfl, rfl, ?_⟩
  rw [show (buildMesh (K := ℝ) Real.sqrt c2Input).materialGroups
      = [(("A"), ⟨0, 6⟩), (("B"), ⟨3, 3⟩)] from rfl,
    show (buildMesh (K := ℝ) Real.sqrt c2Input).indices.length = 9 from rfl]
  decide

/-- C2, amended.  When at least one `usemtl` precedes any face **and no
two `usemtl` directives name the same material**, the material-group
ranges partition `[0, len(indices))` exactly: in declaration order (hence
sorted by `startIndex`) each group's range abuts the next with no gap and
no overlap, and their union covers the whole triangle-index sequence. -/
theorem c2_groups_partition (sq : K → K) (ls : List ObjLine)
    (h1 : noFaceBeforeUsemtl ls = true) (h2 : (usemtlNames ls).Nodup) :
    partitionsExactly (buildMesh sq ls).materialGroups
      (buildMesh sq ls).indices.length := by
  have hinit : MInv (initState : BState K) := by
    refine ⟨rfl, rfl, List.nodup_nil, ?_⟩
    unfold lastOK
    exact ⟨rfl, rfl⟩
  have hinv := foldl_stepLine_MInv sq ls initState hinit
    (fun m hm => by simp [initState]) h2 (fun _ => h1)
  obtain ⟨hchain, hsum, -, -⟩ := hinv
  exact ⟨hchain, hsum⟩

/-- Witness for C2's amended theorem: Scenario D's input (two fresh
materials, one triangle each). -/
theorem c2_witness :
    (noFaceBeforeUsemtl
        [ObjLine.usemtl ("A"), ObjLine.f [1, 2, 3],
         ObjLine.usemtl ("B"), ObjLine.f [4, 5, 6]] = true
      ∧ (usemtlNames
          [ObjLine.usemtl ("A"), ObjLine.f [1, 2, 3],
           ObjLine.usemtl ("B"), ObjLine.f [4, 5, 6]]).Nodup)
    ∧ partitionsExactly
        (buildMesh (K := ℚ) (fun _ => 0)
          [ObjLine.usemtl ("A"), ObjLine.f [1, 2, 3],
           ObjLine.usemtl ("B"), ObjLine.f [4, 5, 6]]).materialGroups
        (buildMesh (K := ℚ) (fun _ => 0)
          [ObjLine.usemtl ("A"), ObjLine.f [1, 2, 3],
           ObjLine.usemtl ("B"), ObjLine.f [4, 5, 6]]).indices.length :=
  ⟨⟨by decide, by decide⟩,
    c2_groups_partition (K := ℚ) (fun _ => 0)
      [ObjLine.usemtl ("A"), ObjLine.f [1, 2, 3],
       ObjLine.usemtl ("B"), ObjLine.f [4, 5, 6]] (by decide) (by decide)⟩

/-- Witness for C8's amended theorem: two property lines (one with a
missing field) before a `newmtl`. -/
theorem c8_witness :
    (∀ l ∈ [MtlLine.mKa [1, 0, 0], MtlLine.mNs []], l.hasNew = false)
    ∧ (parseMTLlines ([MtlLine.mKa [1, 0, 0], MtlLine.mNs []] ++
          [MtlLine.newmtl ("Red"), MtlLine.mKd [1, 0, 0]])
        = parseMTLlines [MtlLine.newmtl ("Red"), MtlLine.mKd [1, 0, 0]]
      ∧ (parseMTLlines [MtlLine.mKa [1, 0, 0], MtlLine.mNs []]).materials = []) :=
  ⟨by decide,
    c8_parseMTL_ignores_leading_props
      [MtlLine.mKa [1, 0, 0], MtlLine.mNs []]
      [MtlLine.newmtl ("Red"), MtlLine.mKd [1, 0, 0]] (by decide)⟩

theorem getp_map_fin (rs : List K) (j : ℤ) (h0 : 0 ≤ j)
    (h1 : j.toNat < rs.length) :
    getp (rs.map EF.fin) j = EF.fin (rs.getD j.toNat 0) := by
  unfold getp
  rw [if_pos h0, List.getD_eq_getElem _ _ (by simpa using h1),
    List.getD_eq_getElem _ _ h1, List.getElem_map]

theorem ptsOf_getD (rs : List K) (fv : List ℤ) (i : ℕ) (hi : i < fv.length) :
    (ptsOf rs fv).getD i (0, 0, 0) = ptAt rs (fv.getD i 0) := by
  unfold ptsOf
  rw [List.getD_eq_getElem _ _ (by simpa using hi),
    List.getD_eq_getElem _ _ hi, List.getElem_map]

theorem newellBody_lift (rs : List K) (fv : List ℤ)
    (h : ∀ v ∈ fv, 0 ≤ v ∧ v.toNat * 3 + 2 < rs.length)
    (i : ℕ) (hi : i < fv.length) (m : K × K × K) :
    newellBody (rs.map EF.fin) fv (finV3 m) i
      = finV3 (m + specNewellTerm (ptsOf rs fv) i) := by
  have hlen0 : 0 < fv.length := by omega
  have hmod : (i + 1) % fv.length < fv.length := Nat.mod_lt _ hlen0
  have hv1 : fv.getD i 0 ∈ fv := by
    rw [List.getD_eq_getElem _ _ hi]
    exact List.getElem_mem hi
  have hv2 : fv.getD ((i + 1) % fv.length) 0 ∈ fv := by
    rw [List.getD_eq_getElem _ _ hmod]
    exact List.getElem_mem hmod
  obtain ⟨h10, h12⟩ := h _ hv1
  obtain ⟨h20, h22⟩ := h _ hv2
  have e1 := getp_map_fin rs (fv.getD i 0 * 3) (by omega) (by omega)
  have e2 := getp_map_fin rs (fv.getD i 0 * 3 + 1) (by omega) (by omega)
  have e3 := getp_map_fin rs (fv.getD i 0 * 3 + 2) (by omega) (by omega)
  have e4 := getp_map_fin rs (fv.getD ((i + 1) % fv.length) 0 * 3)
    (by omega) (by omega)
  have e5 := getp_map_fin rs (fv.getD ((i + 1) % fv.length) 0 * 3 + 1)
    (by omega) (by omega)
  have e6 := getp_map_fin rs (fv.getD ((i + 1) % fv.length) 0 * 3 + 2)
    (by omega) (by omega)
  have n1 : (fv.getD i 0 * 3).toNat = (fv.getD i 0).toNat * 3 := by omega
  have n2 : (fv.getD i 0 * 3 + 1).toNat = (fv.getD i 0).toNat * 3 + 1 := by
    omega
  have n3 : (fv.getD i 0 * 3 + 2).toNat = (fv.getD i 0).toNat * 3 + 2 := by
    omega
  have n4 : (fv.getD ((i + 1) % fv.length) 0 * 3).toNat
      = (fv.getD ((i + 1) % fv.length) 0).toNat * 3 := by omega
  have n5 : (fv.getD ((i + 1) % fv.length) 0 * 3 + 1).toNat
      = (fv.getD ((i + 1) % fv.length) 0).toNat * 3 + 1 := by omega
  have n6 : (fv.getD ((i + 1) % fv.length) 0 * 3 + 2).toNat
      = (fv.getD ((i + 1) % fv.length) 0).toNat * 3 + 2 := by omega
  rw [n1] at e1
  rw [n2] at e2
  rw [n3] at e3
  rw [n4] at e4
  rw [n5] at e5
  rw [n6] at e6
  simp only [newellBody, specNewellTerm, e1, e2, e3, e4, e5, e6]
  rw [show (ptsOf rs fv).length = fv.length from List.length_map _ _,
    ptsOf_getD rs fv i hi, ptsOf_getD rs fv _ hmod]
  simp [finV3, ptAt, Prod.mk_add_mk]

theorem newell_fold_lift (rs : List K) (fv : List ℤ)
    (h : ∀ v ∈ fv, 0 ≤ v ∧ v.toNat * 3 + 2 < rs.length) :
    ∀ (l : List ℕ), (∀ i ∈ l, i < fv.length) → ∀ (m : K × K × K),
      l.foldl (newellBody (rs.map EF.fin) fv) (finV3 m)
        = finV3 (m + (l.map (specNewellTerm (ptsOf rs fv))).sum)
  | [], _, m => by simp
  | i :: l, hl, m => by
      rw [List.foldl_cons,
        newellBody_lift rs fv h i (hl i (List.mem_cons_self _ _)) m,
        newell_fold_lift rs fv h l
          (fun j hj => hl j (List.mem_cons_of_mem _ hj))]
      simp [add_assoc]

/-- The code's Newell accumulation on finite positions is exactly the
spec's Newell sum. -/
theorem newellAccum_lift (rs : List K) (fv : List ℤ)
    (h : ∀ v ∈ fv, 0 ≤ v ∧ v.toNat * 3 + 2 < rs.length) :
    newellAccum (rs.map EF.fin) fv = finV3 (specNewell (ptsOf rs fv)) := by
  unfold newellAccum specNewell
  rw [show ((EF.fin 0, EF.fin 0, EF.fin 0) : V3 K)
      = finV3 ((0, 0, 0) : K × K × K) from rfl,
    newell_fold_lift rs fv h (List.range fv.length)
      (fun i hi => List.mem_range.mp hi) (0, 0, 0),
    show (ptsOf rs fv).length = fv.length from List.length_map _ _]
  simp

/-- The code's `if (length > 0) divide` normalization on a finite vector
is the spec's normalize-if-nonzero. -/
theorem normalize_fin (m : ℝ × ℝ × ℝ) :
    (if (EF.sqrtE Real.sqrt (sqLen (finV3 m))).isPos
     then divV (finV3 m) (EF.sqrtE Real.sqrt (sqLen (finV3 m)))
     else finV3 m)
      = finV3 (specNormalizeR m) := by
  have hS : sqLen (finV3 m)
      = EF.fin (m.1 * m.1 + m.2.1 * m.2.1 + m.2.2 * m.2.2) := by
    simp [sqLen, finV3]
  have hS0 : (0 : ℝ) ≤ m.1 * m.1 + m.2.1 * m.2.1 + m.2.2 * m.2.2 := by
    have a1 := mul_self_nonneg m.1
    have a2 := mul_self_nonneg m.2.1
    have a3 := mul_self_nonneg m.2.2
    linarith
  have hsq : EF.sqrtE Real.sqrt (sqLen (finV3 m))
      = EF.fin (Real.sqrt (m.1 * m.1 + m.2.1 * m.2.1 + m.2.2 * m.2.2)) := by
    rw [hS]
    simp [not_lt.mpr hS0]
  rw [hsq]
  by_cases hpos :
      0 < Real.sqrt (m.1 * m.1 + m.2.1 * m.2.1 + m.2.2 * m.2.2)
  · rw [if_pos (by simpa using hpos)]
    unfold specNormalizeR
    rw [if_neg hpos.ne.symm]
    unfold divV finV3
    simp [hpos.ne.symm]
  · rw [if_neg (by simpa using hpos)]
    unfold specNormalizeR
    rw [if_pos (le_antisymm (not_lt.mp hpos) (Real.sqrt_nonneg _))]

/-- The face normal the code computes, on finite in-range positions, is
the spec's normalized Newell normal. -/
theorem faceNormal_lift (rs : List ℝ) (fv : List ℤ)
    (h : ∀ v ∈ fv, 0 ≤ v ∧ v.toNat * 3 + 2 < rs.length) :
    faceNormal Real.sqrt (rs.map EF.fin) fv
      = finV3 (specNormalizeR (specNewell (ptsOf rs fv))) := by
  unfold faceNormal
  rw [newellAccum_lift rs fv h]
  exact normalize_fin _

/-- What the accumulation pass does to each vertex's accumulator when the
face has no repeated vertices. -/
theorem accumNormals_apply (n : V3 K) :
    ∀ (fv : List ℤ), fv.Nodup → ∀ (t : ℤ → Option (V3 K)) (v : ℤ),
      accumNormals n fv t v
        = if v ∈ fv
          then some (addV3 ((t v).getD (EF.fin 0, EF.fin 0, EF.fin 0)) n)
          else t v
  | [], _, t, v => by simp [accumNormals]
  | w :: fv, hnd, t, v => by
      rw [show accumNormals n (w :: fv) t
          = accumNormals n fv (Function.update t w
              (some (addV3 ((t w).getD (EF.fin 0, EF.fin 0, EF.fin 0)) n)))
          from rfl,
        accumNormals_apply n fv (List.nodup_cons.mp hnd).2 _ v]
      by_cases hv : v = w
      · subst hv
        rw [if_neg (fun hm => (List.nodup_cons.mp hnd).1 hm),
          Function.update_same, if_pos (List.mem_cons_self _ _)]
      · rw [Function.update_noteq hv]
        by_cases hvf : v ∈ fv
        · rw [if_pos hvf, if_pos (List.mem_cons_of_mem _ hvf)]
        · rw [if_neg hvf, if_neg (by simp [hv, hvf])]

theorem stepLine_f_temp (sq : K → K) (s : BState K) (raw : List ℤ) :
    (stepLine sq s (ObjLine.f raw)).tempNormals
      = accumNormals (faceNormal sq s.positions (raw.map (fun w => w - 1)))
          (raw.map (fun w => w - 1)) s.tempNormals := by
  rw [show stepLine sq s (ObjLine.f raw) =
        triStep
          { s with
            tempNormals :=
              accumNormals
                (faceNormal sq s.positions (raw.map (fun w => w - 1)))
                (raw.map (fun w => w - 1)) s.tempNormals }
          (raw.map (fun w => w - 1)) from rfl, triStep_temp]

/-- C4: a face directive computes one face normal by Newell's method over
the consecutive (decremented) vertex pairs using the current
pre-normalization positions, normalizes it to unit length exactly when
its length is nonzero, and adds that same normal to the accumulator of
every vertex the face references (leaving all other accumulators
untouched). -/
theorem c4_newell_face_normal (s : BState ℝ) (rs : List ℝ)
    (hpos : s.positions = rs.map EF.fin) (raw : List ℤ)
    (hrange : ∀ v ∈ raw.map (fun w => w - 1),
      0 ≤ v ∧ v.toNat * 3 + 2 < rs.length)
    (hnodup : (raw.map (fun w => w - 1)).Nodup) :
    faceNormal Real.sqrt s.positions (raw.map (fun w => w - 1))
        = finV3 (specNormalizeR (specNewell (ptsOf rs (raw.map (fun w => w - 1)))))
    ∧ (∀ v ∈ raw.map (fun w => w - 1),
        (stepLine Real.sqrt s (ObjLine.f raw)).tempNormals v
          = some (addV3
              ((s.tempNormals v).getD (EF.fin 0, EF.fin 0, EF.fin 0))
              (finV3 (specNormalizeR
                (specNewell (ptsOf rs (raw.map (fun w => w - 1))))))))
    ∧ (∀ v : ℤ, v ∉ raw.map (fun w => w - 1) →
        (stepLine Real.sqrt s (ObjLine.f raw)).tempNormals v
          = s.tempNormals v) := by
  have hface : faceNormal Real.sqrt s.positions (raw.map (fun w => w - 1))
      = finV3 (specNormalizeR
          (specNewell (ptsOf rs (raw.map (fun w => w - 1))))) := by
    rw [hpos]
    exact faceNormal_lift rs _ hrange
  refine ⟨hface, ?_, ?_⟩
  · intro v hv
    rw [stepLine_f_temp, accumNormals_apply _ _ hnodup, if_pos hv, hface]
  · intro v hv
    rw [stepLine_f_temp, accumNormals_apply _ _ hnodup, if_neg hv]

/-- Witness for C4 at Scenario A's unit square in the XY plane. -/
theorem c4_witness :
    ((BState.mk (K := ℝ)
        (([0, 0, 0, 1, 0, 0, 1, 1, 0, 0, 1, 0] : List ℝ).map EF.fin)
        [] [] [] none (fun _ => none)).positions
      = ([0, 0, 0, 1, 0, 0, 1, 1, 0, 0, 1, 0] : List ℝ).map EF.fin
    ∧ (∀ v ∈ ([1, 2, 3, 4] : List ℤ).map (fun w => w - 1),
        0 ≤ v ∧ v.toNat * 3 + 2
          < ([0, 0, 0, 1, 0, 0, 1, 1, 0, 0, 1, 0] : List ℝ).length)
    ∧ (([1, 2, 3, 4] : List ℤ).map (fun w => w - 1)).Nodup)
    ∧ (∀ v ∈ ([1, 2, 3, 4] : List ℤ).map (fun w => w - 1),
        (stepLine Real.sqrt
          (BState.mk (K := ℝ)
            (([0, 0, 0, 1, 0, 0, 1, 1, 0, 0, 1, 0] : List ℝ).map EF.fin)
            [] [] [] none (fun _ => none))
          (ObjLine.f [1, 2, 3, 4])).tempNormals v
          = some (addV3 (EF.fin 0, EF.fin 0, EF.fin 0)
              (finV3 (specNormalizeR (specNewell
                (ptsOf ([0, 0, 0, 1, 0, 0, 1, 1, 0, 0, 1, 0] : List ℝ)
                  (([1, 2, 3, 4] : List ℤ).map (fun w => w - 1)))))))) := by
  have h1 : (∀ v ∈ ([1, 2, 3, 4] : List ℤ).map (fun w => w - 1),
      0 ≤ v ∧ v.toNat * 3 + 2
        < ([0, 0, 0, 1, 0, 0, 1, 1, 0, 0, 1, 0] : List ℝ).length) := by
    intro v hv
    simp only [List.map_cons, List.map_nil, List.mem_cons,
      List.not_mem_nil, or_false] at hv
    rcases hv with h | h | h | h <;> subst h <;> exact ⟨by decide, by decide⟩
  have h2 : (([1, 2, 3, 4] : List ℤ).map (fun w => w - 1)).Nodup := by decide
  have main := c4_newell_face_normal
    (BState.mk (K := ℝ)
      (([0, 0, 0, 1, 0, 0, 1, 1, 0, 0, 1, 0] : List ℝ).map EF.fin)
      [] [] [] none (fun _ => none))
    [0, 0, 0, 1, 0, 0, 1, 1, 0, 0, 1, 0] rfl [1, 2, 3, 4] h1 h2
  exact ⟨⟨rfl, h1, h2⟩, fun v hv => main.2.1 v hv⟩

theorem addV3_finV3 (a b : K × K × K) :
    addV3 (finV3 a) (finV3 b) = finV3 (a + b) := by
  simp [addV3, finV3, Prod.fst_add, Prod.snd_add]

theorem liftT_getD (tq : ℤ → Option (K × K × K)) (v : ℤ) :
    (liftT tq v).getD (EF.fin 0, EF.fin 0, EF.fin 0)
      = finV3 ((tq v).getD (0, 0, 0)) := by
  unfold liftT
  cases tq v <;> rfl

theorem accumNormals_lift (n : K × K × K) :
    ∀ (fv : List ℤ) (tq : ℤ → Option (K × K × K)),
      accumNormals (finV3 n) fv (liftT tq) = liftT (accumK n fv tq)
  | [], _ => rfl
  | w :: fv, tq => by
      rw [show accumNormals (finV3 n) (w :: fv) (liftT tq)
          = accumNormals (finV3 n) fv
              (Function.update (liftT tq) w
                (some (addV3
                  ((liftT tq w).getD (EF.fin 0, EF.fin 0, EF.fin 0))
                  (finV3 n)))) from rfl,
        show accumK n (w :: fv) tq
          = accumK n fv
              (Function.update tq w (some ((tq w).getD (0, 0, 0) + n)))
          from rfl]
      have hupd : Function.update (liftT tq) w
            (some (addV3
              ((liftT tq w).getD (EF.fin 0, EF.fin 0, EF.fin 0))
              (finV3 n)))
          = liftT (Function.update tq w
              (some ((tq w).getD (0, 0, 0) + n))) := by
        funext v
        by_cases hv : v = w
        · subst hv
          rw [Function.update_same, liftT_getD, addV3_finV3]
          unfold liftT
          rw [Function.update_same]
          rfl
        · unfold liftT
          rw [Function.update_noteq hv, Function.update_noteq hv]
      rw [hupd]
      exact accumNormals_lift n fv _

theorem accumK_none (n : K × K × K) :
    ∀ (fv : List ℤ) (tq : ℤ → Option (K × K × K)) (v : ℤ),
      (accumK n fv tq v = none ↔ (tq v = none ∧ v ∉ fv))
  | [], tq, v => by simp [accumK]
  | w :: fv, tq, v => by
      rw [show accumK n (w :: fv) tq
          = accumK n fv
              (Function.update tq w (some ((tq w).getD (0, 0, 0) + n)))
          from rfl,
        accumK_none n fv _ v]
      by_cases hv : v = w
      · subst hv
        simp [Function.update_same]
      · simp [Function.update_noteq hv, hv]

theorem finBody_lift (tq : ℤ → Option (ℝ × ℝ × ℝ)) (acc : List (EF ℝ))
    (i : ℕ) :
    finBody Real.sqrt (liftT tq) acc i
      = acc ++ flatV [specFinalNormal (tq (i : ℤ))] := by
  have hn : (liftT tq (i : ℤ)).getD (EF.fin 0, EF.fin 0, EF.fin 1)
      = finV3 ((tq (i : ℤ)).getD (0, 0, 1)) := by
    unfold liftT
    cases tq (i : ℤ) <;> rfl
  simp only [finBody, hn, normalize_fin]
  simp [flatV, finV3, specFinalNormal]

theorem finalize_lift (tq : ℤ → Option (ℝ × ℝ × ℝ)) (plen : ℕ) :
    finalizeNormals Real.sqrt (liftT tq) plen
      = flatV ((List.range ((plen + 2) / 3)).map
          (fun (i : ℕ) => specFinalNormal (tq (i : ℤ)))) := by
  unfold finalizeNormals
  suffices h : ∀ (l : List ℕ) (acc : List (EF ℝ)),
      l.foldl (finBody Real.sqrt (liftT tq)) acc
        = acc ++ flatV (l.map (fun (i : ℕ) => specFinalNormal (tq (i : ℤ)))) by
    simpa using h (List.range ((plen + 2) / 3)) []
  intro l
  induction l with
  | nil => intro acc; simp [flatV]
  | cons i l ih =>
      intro acc
      rw [List.foldl_cons, finBody_lift, ih]
      simp [flatV]

/-- Lifted positions and accumulators persist through the scan when every
face is in range; afterwards an accumulator is absent exactly for the
vertices never referenced by any face. -/
theorem foldl_stepLine_lift :
    ∀ (ls : List ObjLine) (s : BState ℝ) (rs : List ℝ)
      (tq : ℤ → Option (ℝ × ℝ × ℝ)),
      s.positions = rs.map EF.fin → s.tempNormals = liftT tq →
      facesInRangeGo rs.length ls = true →
      ∃ (rs2 : List ℝ) (tq2 : ℤ → Option (ℝ × ℝ × ℝ)),
        (ls.foldl (stepLine Real.sqrt) s).positions = rs2.map EF.fin
        ∧ (ls.foldl (stepLine Real.sqrt) s).tempNormals = liftT tq2
        ∧ (∀ v : ℤ, tq2 v = none ↔ (tq v = none ∧ v ∉ referencedVerts ls))
  | [], s, rs, tq, hp, ht, _ =>
      ⟨rs, tq, hp, ht, by simp [referencedVerts]⟩
  | ObjLine.v fields :: ls, s, rs, tq, hp, ht, hin => by
      rw [List.foldl_cons]
      have hp2 : (stepLine Real.sqrt s (ObjLine.v fields)).positions
          = (rs ++ fields.map (fun (q : ℚ) => (q : ℝ))).map EF.fin := by
        rw [show (stepLine Real.sqrt s (ObjLine.v fields)).positions
            = s.positions ++ fields.map (fun (q : ℚ) => EF.fin (q : ℝ))
            from rfl, hp]
        simp [List.map_map, Function.comp]
      have hin2 : facesInRangeGo
          (rs ++ fields.map (fun (q : ℚ) => (q : ℝ))).length ls = true := by
        rw [List.length_append, List.length_map]
        exact hin
      obtain ⟨rs2, tq2, h1, h2, h3⟩ := foldl_stepLine_lift ls _ _ tq hp2 ht hin2
      exact ⟨rs2, tq2, h1, h2, fun v => by
        rw [h3 v, show referencedVerts (ObjLine.v fields :: ls)
          = referencedVerts ls from rfl]⟩
  | ObjLine.usemtl m :: ls, s, rs, tq, hp, ht, hin => by
      rw [List.foldl_cons]
      have hp2 : (stepLine Real.sqrt s (ObjLine.usemtl m)).positions
          = rs.map EF.fin := hp
      have ht2 : (stepLine Real.sqrt s (ObjLine.usemtl m)).tempNormals
          = liftT tq := ht
      obtain ⟨rs2, tq2, h1, h2, h3⟩ :=
        foldl_stepLine_lift ls _ _ tq hp2 ht2 hin
      exact ⟨rs2, tq2, h1, h2, fun v => by
        rw [h3 v, show referencedVerts (ObjLine.usemtl m :: ls)
          = referencedVerts ls from rfl]⟩
  | ObjLine.other :: ls, s, rs, tq, hp, ht, hin => by
      rw [List.foldl_cons]
      obtain ⟨rs2, tq2, h1, h2, h3⟩ :=
        foldl_stepLine_lift ls _ _ tq hp ht hin
      exact ⟨rs2, tq2, h1, h2, fun v => by
        rw [h3 v, show referencedVerts (ObjLine.other :: ls)
          = referencedVerts ls from rfl]⟩
  | ObjLine.f raw :: ls, s, rs, tq, hp, ht, hin => by
      rw [List.foldl_cons]
      have hin' := hin
      rw [show facesInRangeGo rs.length (ObjLine.f raw :: ls)
          = ((raw.all (fun w => decide (1 ≤ w)
              && decide ((w - 1).toNat * 3 + 2 < rs.length)))
            && facesInRangeGo rs.length ls) from rfl,
        Bool.and_eq_true] at hin'
      have hrange : ∀ v ∈ raw.map (fun w => w - 1),
          0 ≤ v ∧ v.toNat * 3 + 2 < rs.length := by
        intro v hv
        obtain ⟨w, hw, hwv⟩ := List.mem_map.mp hv
        have hall := List.all_eq_true.mp hin'.1 w hw
        rw [Bool.and_eq_true, decide_eq_true_eq, decide_eq_true_eq] at hall
        subst hwv
        exact ⟨by omega, hall.2⟩
      have hp2 : (stepLine Real.sqrt s (ObjLine.f raw)).positions
          = rs.map EF.fin := by
        rw [show stepLine Real.sqrt s (ObjLine.f raw) =
              triStep
                { s with
                  tempNormals :=
                    accumNormals
                      (faceNormal Real.sqrt s.positions
                        (raw.map (fun w => w - 1)))
                      (raw.map (fun w => w - 1)) s.tempNormals }
                (raw.map (fun w => w - 1)) from rfl, triStep_positions]
        exact hp
      have ht2 : (stepLine Real.sqrt s (ObjLine.f raw)).tempNormals
          = liftT (accumK
              (specNormalizeR (specNewell (ptsOf rs (raw.map (fun w => w - 1)))))
              (raw.map (fun w => w - 1)) tq) := by
        rw [stepLine_f_temp, hp, ht, faceNormal_lift rs _ hrange,
          accumNormals_lift]
      obtain ⟨rs2, tq2, h1, h2, h3⟩ :=
        foldl_stepLine_lift ls _ rs _ hp2 ht2 hin'.2
      refine ⟨rs2, tq2, h1, h2, fun v => ?_⟩
      rw [h3 v, accumK_none,
        show referencedVerts (ObjLine.f raw :: ls)
          = raw.map (fun w => w - 1) ++ referencedVerts ls from rfl]
      simp [List.mem_append]
      tauto

theorem specNormalizeR_unit_or_zero (m : ℝ × ℝ × ℝ) :
    ((specNormalizeR m).1 * (specNormalizeR m).1
        + (specNormalizeR m).2.1 * (specNormalizeR m).2.1
        + (specNormalizeR m).2.2 * (specNormalizeR m).2.2 = 1)
    ∨ (specNormalizeR m = (0, 0, 0) ∧ m = (0, 0, 0)) := by
  have hS0 : (0 : ℝ) ≤ m.1 * m.1 + m.2.1 * m.2.1 + m.2.2 * m.2.2 := by
    have a1 := mul_self_nonneg m.1
    have a2 := mul_self_nonneg m.2.1
    have a3 := mul_self_nonneg m.2.2
    linarith
  have a1 := mul_self_nonneg m.1
  have a2 := mul_self_nonneg m.2.1
  have a3 := mul_self_nonneg m.2.2
  by_cases hz : Real.sqrt (m.1 * m.1 + m.2.1 * m.2.1 + m.2.2 * m.2.2) = 0
  · right
    have hSz : m.1 * m.1 + m.2.1 * m.2.1 + m.2.2 * m.2.2 = 0 := by
      have hle := Real.sqrt_eq_zero'.mp hz
      linarith
    have h1 : m.1 = 0 := by
      have e : m.1 * m.1 = 0 := by linarith
      exact mul_self_eq_zero.mp e
    have h2 : m.2.1 = 0 := by
      have e : m.2.1 * m.2.1 = 0 := by linarith
      exact mul_self_eq_zero.mp e
    have h3 : m.2.2 = 0 := by
      have e : m.2.2 * m.2.2 = 0 := by linarith
      exact mul_self_eq_zero.mp e
    have hm : m = (0, 0, 0) := by
      rw [show m = (m.1, m.2.1, m.2.2) from rfl, h1, h2, h3]
    constructor
    · unfold specNormalizeR
      rw [if_pos hz]
      exact hm
    · exact hm
  · left
    have hSne : m.1 * m.1 + m.2.1 * m.2.1 + m.2.2 * m.2.2 ≠ 0 := by
      intro hSz
      exact hz (by rw [hSz, Real.sqrt_zero])
    have hl := Real.mul_self_sqrt hS0
    unfold specNormalizeR
    rw [if_neg hz]
    dsimp only
    rw [div_mul_div_comm, div_mul_div_comm, div_mul_div_comm, hl,
      div_add_div_same, div_add_div_same]
    exact div_self hSne

theorem specFinalNormal_none : specFinalNormal (none : Option (ℝ × ℝ × ℝ)) = (0, 0, 1) := by
  unfold specFinalNormal specNormalizeR
  norm_num

/-- C5, amended.  After finalization, on inputs whose faces are in range,
every per-vertex normal (in vertex-index order) is finite and has
squared magnitude exactly 1 — in particular magnitude `1.0 ± 1e-5` — or
is the zero vector `[0,0,0]` (a zero accumulator: degenerate or
cancelling faces); a vertex never referenced by any face gets exactly
the fallback `[0,0,1]`. -/
theorem c5_normals_unit_or_zero (ls : List ObjLine)
    (h : facesInRange ls = true) :
    ∃ ns : List (ℝ × ℝ × ℝ),
      (buildMesh Real.sqrt ls).normals = flatV ns
      ∧ ns.length = ((qPositions ls).length + 2) / 3
      ∧ (∀ p ∈ ns,
          p.1 * p.1 + p.2.1 * p.2.1 + p.2.2 * p.2.2 = 1 ∨ p = (0, 0, 0))
      ∧ (∀ i : ℕ, i < ns.length → ((i : ℤ) ∉ referencedVerts ls) →
          ns.getD i (0, 0, 0) = (0, 0, 1)) := by
  have hinit_t : (initState : BState ℝ).tempNormals
      = liftT (fun _ => none) := rfl
  obtain ⟨rs2, tq2, h1, h2, h3⟩ := foldl_stepLine_lift ls initState [] (fun _ => none)
    rfl hinit_t h
  have hplen : (runLines Real.sqrt ls).positions.length
      = (qPositions ls).length := by
    rw [runLines_positions]
    exact List.length_map _ _
  have hnorm : (buildMesh Real.sqrt ls).normals
      = finalizeNormals Real.sqrt (runLines Real.sqrt ls).tempNormals
          (runLines Real.sqrt ls).positions.length := rfl
  refine ⟨(List.range (((qPositions ls).length + 2) / 3)).map
      (fun (i : ℕ) => specFinalNormal (tq2 (i : ℤ))), ?_, by simp, ?_, ?_⟩
  · rw [hnorm, show (runLines Real.sqrt ls).tempNormals = liftT tq2 from h2,
      finalize_lift, hplen]
  · intro p hp
    obtain ⟨i, _, hip⟩ := List.mem_map.mp hp
    rcases specNormalizeR_unit_or_zero ((tq2 (i : ℤ)).getD (0, 0, 1)) with hu | hu
    · left
      rw [← hip]
      exact hu
    · right
      rw [← hip]
      exact hu.1
  · intro i hilen hiref
    have hnone : tq2 (i : ℤ) = none := by
      rw [h3]
      exact ⟨rfl, hiref⟩
    rw [List.getD_eq_getElem _ _ hilen, List.getElem_map, List.getElem_range,
      hnone, specFinalNormal_none]

/-- Witness for C5's amended theorem: Scenario A's unit square with one
quad face, plus one orphaned vertex. -/
theorem c5_witness :
    facesInRange
        [ObjLine.v [0, 0, 0], ObjLine.v [1, 0, 0], ObjLine.v [1, 1, 0],
         ObjLine.v [0, 1, 0], ObjLine.v [5, 5, 5],
         ObjLine.f [1, 2, 3, 4]] = true
    ∧ ∃ ns : List (ℝ × ℝ × ℝ),
        (buildMesh Real.sqrt
          [ObjLine.v [0, 0, 0], ObjLine.v [1, 0, 0], ObjLine.v [1, 1, 0],
           ObjLine.v [0, 1, 0], ObjLine.v [5, 5, 5],
           ObjLine.f [1, 2, 3, 4]]).normals = flatV ns
        ∧ ns.length = ((qPositions
            [ObjLine.v [0, 0, 0], ObjLine.v [1, 0, 0], ObjLine.v [1, 1, 0],
             ObjLine.v [0, 1, 0], ObjLine.v [5, 5, 5],
             ObjLine.f [1, 2, 3, 4]]).length + 2) / 3
        ∧ (∀ p ∈ ns,
            p.1 * p.1 + p.2.1 * p.2.1 + p.2.2 * p.2.2 = 1 ∨ p = (0, 0, 0))
        ∧ (∀ i : ℕ, i < ns.length →
            ((i : ℤ) ∉ referencedVerts
              [ObjLine.v [0, 0, 0], ObjLine.v [1, 0, 0], ObjLine.v [1, 1, 0],
               ObjLine.v [0, 1, 0], ObjLine.v [5, 5, 5],
               ObjLine.f [1, 2, 3, 4]]) →
            ns.getD i (0, 0, 0) = (0, 0, 1)) :=
  ⟨by decide,
    c5_normals_unit_or_zero
      [ObjLine.v [0, 0, 0], ObjLine.v [1, 0, 0], ObjLine.v [1, 1, 0],
       ObjLine.v [0, 1, 0], ObjLine.v [5, 5, 5],
       ObjLine.f [1, 2, 3, 4]] (by decide)⟩

/-- C5, counterexample.  On the collinear face every output normal is the
zero vector: vertex 0 is referenced by a face, yet its normal has
magnitude 0 (not `1.0 ± 1e-5`) and is not the fallback `[0,0,1]`. -/
theorem c5_counterexample :
    (buildMesh (K := ℝ) Real.sqrt c5Input).normals
        = [EF.fin 0, EF.fin 0, EF.fin 0, EF.fin 0, EF.fin 0, EF.fin 0,
           EF.fin 0, EF.fin 0, EF.fin 0]
    ∧ (0 : ℤ) ∈ referencedVerts c5Input
    ∧ ¬ (|Real.sqrt ((0 : ℝ) * 0 + 0 * 0 + 0 * 0) - 1| ≤ 1 / 100000)
    ∧ ((0 : ℝ), (0 : ℝ), (0 : ℝ)) ≠ ((0 : ℝ), (0 : ℝ), (1 : ℝ)) := by
  refine ⟨?_, by decide, ?_, ?_⟩
  · simp [c5Input, buildMesh, runLines, stepLine, initState, finalizeNormals,
      finBody, faceNormal, newellAccum, newellBody, sqLen, divV, accumNormals,
      getp, getn, List.range_succ, Function.update, triStep, triBody,
      List.getD, EF.sub, EF.add, EF.mul, EF.div]
  · rw [show (0 : ℝ) * 0 + 0 * 0 + 0 * 0 = 0 by ring, Real.sqrt_zero]
    norm_num
  · intro hcontra
    have h22 := congrArg (fun p : ℝ × ℝ × ℝ => p.2.2) hcontra
    norm_num at h22

theorem minE_mapMin (o : Option K) (x : K) :
    (mapMin o).minE (EF.fin x) = mapMin (ominStep o x) := by
  cases o <;> rfl

theorem maxE_mapMax (o : Option K) (x : K) :
    (mapMax o).maxE (EF.fin x) = mapMax (omaxStep o x) := by
  cases o <;> rfl

theorem getn_map_fin (rs : List K) (j : ℕ) (h : j < rs.length) :
    getn (rs.map EF.fin) j = EF.fin (rs.getD j 0) := by
  unfold getn
  rw [List.getD_eq_getElem _ _ (by simpa using h),
    List.getD_eq_getElem _ _ h, List.getElem_map]

theorem bbox_fold_lift (rs : List K) :
    ∀ (l : List ℕ), (∀ k ∈ l, 3 * k + 2 < rs.length) →
      ∀ (o1 o2 o3 o4 o5 o6 : Option K),
        l.foldl (bboxBody (rs.map EF.fin))
            ((mapMin o1, mapMin o2, mapMin o3),
             (mapMax o4, mapMax o5, mapMax o6))
          = ((mapMin (l.foldl (fun o k => ominStep o (rs.getD (3 * k) 0)) o1),
              mapMin (l.foldl (fun o k => ominStep o (rs.getD (3 * k + 1) 0)) o2),
              mapMin (l.foldl (fun o k => ominStep o (rs.getD (3 * k + 2) 0)) o3)),
             (mapMax (l.foldl (fun o k => omaxStep o (rs.getD (3 * k) 0)) o4),
              mapMax (l.foldl (fun o k => omaxStep o (rs.getD (3 * k + 1) 0)) o5),
              mapMax (l.foldl (fun o k => omaxStep o (rs.getD (3 * k + 2) 0)) o6)))
  | [], _, o1, o2, o3, o4, o5, o6 => rfl
  | k :: l, hk, o1, o2, o3, o4, o5, o6 => by
      have hk0 : 3 * k + 2 < rs.length := hk k (List.mem_cons_self _ _)
      have hstep : bboxBody (rs.map EF.fin)
            ((mapMin o1, mapMin o2, mapMin o3),
             (mapMax o4, mapMax o5, mapMax o6)) k
          = ((mapMin (ominStep o1 (rs.getD (3 * k) 0)),
              mapMin (ominStep o2 (rs.getD (3 * k + 1) 0)),
              mapMin (ominStep o3 (rs.getD (3 * k + 2) 0))),
             (mapMax (omaxStep o4 (rs.getD (3 * k) 0)),
              mapMax (omaxStep o5 (rs.getD (3 * k + 1) 0)),
              mapMax (omaxStep o6 (rs.getD (3 * k + 2) 0)))) := by
        simp only [bboxBody, getn_map_fin rs (3 * k) (by omega),
          getn_map_fin rs (3 * k + 1) (by omega),
          getn_map_fin rs (3 * k + 2) (by omega),
          minE_mapMin, maxE_mapMax]
      rw [List.foldl_cons, hstep,
        bbox_fold_lift rs l (fun k2 hk2 => hk k2 (List.mem_cons_of_mem _ hk2))]
      simp only [List.foldl_cons]

/-- The bounding-box pass on finite positions equals the finite-level
axis folds. -/
theorem bbox_lift (rs : List K) (h3 : 3 ∣ rs.length) :
    bbox (rs.map EF.fin)
      = ((mapMin (ominFold (axisCoords rs 0)),
          mapMin (ominFold (axisCoords rs 1)),
          mapMin (ominFold (axisCoords rs 2))),
         (mapMax (omaxFold (axisCoords rs 0)),
          mapMax (omaxFold (axisCoords rs 1)),
          mapMax (omaxFold (axisCoords rs 2)))) := by
  obtain ⟨t, ht⟩ := h3
  have hlen : (rs.map EF.fin).length = rs.length := List.length_map _ _
  have hrange : ∀ k ∈ List.range (((rs.map EF.fin).length + 2) / 3),
      3 * k + 2 < rs.length := by
    intro k hk
    rw [hlen] at hk
    have := List.mem_range.mp hk
    omega
  have h := bbox_fold_lift rs
    (List.range (((rs.map EF.fin).length + 2) / 3)) hrange
    none none none none none none
  rw [show ((mapMin (none : Option K), mapMin (none : Option K),
        mapMin (none : Option K)),
       (mapMax (none : Option K), mapMax (none : Option K),
        mapMax (none : Option K)))
      = (((EF.pinf, EF.pinf, EF.pinf),
          (EF.ninf, EF.ninf, EF.ninf)) : V3 K × V3 K) from rfl] at h
  rw [bbox, h]
  unfold ominFold omaxFold axisCoords
  rw [hlen]
  simp only [List.foldl_map, Nat.add_zero]

theorem ominFold_go :
    ∀ (l : List K) (a : K),
      ∃ m, l.foldl ominStep (some a) = some m
        ∧ (m = a ∨ m ∈ l) ∧ m ≤ a ∧ ∀ x ∈ l, m ≤ x
  | [], a => ⟨a, rfl, Or.inl rfl, le_rfl, by simp⟩
  | x :: l, a => by
      rw [List.foldl_cons, show ominStep (some a) x = some (min a x) from rfl]
      obtain ⟨m, hm, hmem, hle, hall⟩ := ominFold_go l (min a x)
      refine ⟨m, hm, ?_, le_trans hle (min_le_left _ _), ?_⟩
      · rcases hmem with h | h
        · rcases min_choice a x with hc | hc
          · exact Or.inl (h.trans hc)
          · exact Or.inr (by rw [h, hc]; exact List.mem_cons_self x l)
        · exact Or.inr (List.mem_cons_of_mem _ h)
      · intro y hy
        rcases List.mem_cons.mp hy with h | h
        · rw [h] at *
          exact le_trans hle (min_le_right _ _)
        · exact hall y h

theorem omaxFold_go :
    ∀ (l : List K) (a : K),
      ∃ m, l.foldl omaxStep (some a) = some m
        ∧ (m = a ∨ m ∈ l) ∧ a ≤ m ∧ ∀ x ∈ l, x ≤ m
  | [], a => ⟨a, rfl, Or.inl rfl, le_rfl, by simp⟩
  | x :: l, a => by
      rw [List.foldl_cons, show omaxStep (some a) x = some (max a x) from rfl]
      obtain ⟨m, hm, hmem, hle, hall⟩ := omaxFold_go l (max a x)
      refine ⟨m, hm, ?_, le_trans (le_max_left _ _) hle, ?_⟩
      · rcases hmem with h | h
        · rcases max_choice a x with hc | hc
          · exact Or.inl (h.trans hc)
          · exact Or.inr (by rw [h, hc]; exact List.mem_cons_self x l)
        · exact Or.inr (List.mem_cons_of_mem _ h)
      · intro y hy
        rcases List.mem_cons.mp hy with h | h
        · rw [h]
          exact le_trans (le_max_right _ _) hle
        · exact hall y h

theorem ominFold_spec (l : List K) (hne : l ≠ []) :
    ∃ m, ominFold l = some m ∧ m ∈ l ∧ ∀ x ∈ l, m ≤ x := by
  cases l with
  | nil => exact absurd rfl hne
  | cons x l =>
      unfold ominFold
      rw [List.foldl_cons, show ominStep none x = some x from rfl]
      obtain ⟨m, hm, hmem, hle, hall⟩ := ominFold_go l x
      refine ⟨m, hm, ?_, ?_⟩
      · rcases hmem with h | h
        · rw [h]
          exact List.mem_cons_self _ _
        · exact List.mem_cons_of_mem _ h
      · intro y hy
        rcases List.mem_cons.mp hy with h | h
        · rw [h]
          exact hle
        · exact hall y h

theorem omaxFold_spec (l : List K) (hne : l ≠ []) :
    ∃ m, omaxFold l = some m ∧ m ∈ l ∧ ∀ x ∈ l, x ≤ m := by
  cases l with
  | nil => exact absurd rfl hne
  | cons x l =>
      unfold omaxFold
      rw [List.foldl_cons, show omaxStep none x = some x from rfl]
      obtain ⟨m, hm, hmem, hle, hall⟩ := omaxFold_go l x
      refine ⟨m, hm, ?_, ?_⟩
      · rcases hmem with h | h
        · rw [h]
          exact List.mem_cons_self _ _
        · exact List.mem_cons_of_mem _ h
      · intro y hy
        rcases List.mem_cons.mp hy with h | h
        · rw [h]
          exact hle
        · exact hall y h

theorem getD_set_ne (l : List (EF K)) (i j : ℕ) (v : EF K) (h : i ≠ j) :
    (l.set i v).getD j EF.nan = l.getD j EF.nan := by
  by_cases hj : j < l.length
  · rw [List.getD_eq_getElem _ _ (by simpa using hj),
      List.getD_eq_getElem _ _ hj, List.getElem_set]
    rw [if_neg h]
  · rw [List.getD_eq_default _ _ (by simpa using not_lt.mp hj),
      List.getD_eq_default _ _ (not_lt.mp hj)]

theorem getD_set_self (l : List (EF K)) (i : ℕ) (v : EF K)
    (h : i < l.length) : (l.set i v).getD i EF.nan = v := by
  rw [List.getD_eq_getElem _ _ (by simpa using h), List.getElem_set, if_pos rfl]

theorem setp_in (ps : List (EF K)) (j : ℕ) (v : EF K) (h : j < ps.length) :
    setp ps j v = ps.set j v := if_pos h

theorem scaleStep_getD (c1 c2 c3 sc : K) (ps : List (EF K)) (i : ℕ)
    (h2 : i + 2 < ps.length) :
    (scaleStep (EF.fin c1, EF.fin c2, EF.fin c3) (EF.fin sc) ps i).length
        = ps.length
    ∧ ∀ j, (scaleStep (EF.fin c1, EF.fin c2, EF.fin c3) (EF.fin sc) ps i).getD
          j EF.nan
        = if j = i then ((ps.getD i EF.nan).sub (EF.fin c1)).mul (EF.fin sc)
          else if j = i + 1 then
            ((ps.getD (i + 1) EF.nan).sub (EF.fin c2)).mul (EF.fin sc)
          else if j = i + 2 then
            ((ps.getD (i + 2) EF.nan).sub (EF.fin c3)).mul (EF.fin sc)
          else ps.getD j EF.nan := by
  have h0 : i < ps.length := by omega
  have h1 : i + 1 < ps.length := by omega
  have hstep : scaleStep (EF.fin c1, EF.fin c2, EF.fin c3) (EF.fin sc) ps i
      = ((ps.set i (((ps.getD i EF.nan).sub (EF.fin c1)).mul (EF.fin sc))).set
          (i + 1)
          (((ps.getD (i + 1) EF.nan).sub (EF.fin c2)).mul (EF.fin sc))).set
        (i + 2)
        (((ps.getD (i + 2) EF.nan).sub (EF.fin c3)).mul (EF.fin sc)) := by
    simp only [scaleStep, getn]
    rw [setp_in ps i _ h0]
    rw [getD_set_ne ps i (i + 1) _ (by omega)]
    rw [setp_in _ (i + 1) _ (by rw [List.length_set]; omega)]
    rw [getD_set_ne _ (i + 1) (i + 2) _ (by omega),
      getD_set_ne ps i (i + 2) _ (by omega)]
    rw [setp_in _ (i + 2) _
      (by rw [List.length_set, List.length_set]; omega)]
  rw [hstep]
  constructor
  · rw [List.length_set, List.length_set, List.length_set]
  · intro j
    by_cases hj0 : j = i
    · subst hj0
      rw [if_pos rfl, getD_set_ne _ (j + 2) j _ (by omega),
        getD_set_ne _ (j + 1) j _ (by omega), getD_set_self _ j _ h0]
    · rw [if_neg hj0]
      by_cases hj1 : j = i + 1
      · subst hj1
        rw [if_pos rfl, getD_set_ne _ (i + 2) (i + 1) _ (by omega),
          getD_set_self _ (i + 1) _ (by rw [List.length_set]; omega)]
      · rw [if_neg hj1]
        by_cases hj2 : j = i + 2
        · subst hj2
          rw [if_pos rfl, getD_set_self _ (i + 2) _
            (by rw [List.length_set, List.length_set]; omega)]
        · rw [if_neg hj2, getD_set_ne _ (i + 2) j _ (by omega),
            getD_set_ne _ (i + 1) j _ (by omega),
            getD_set_ne _ i j _ (by omega)]

/-- The whole rescaling loop, on finite aligned positions with finite
center and scale, rewrites every position to
`(p - center[axis]) * scale`. -/
theorem scaleLoop_spec (c1 c2 c3 sc : K) (rs : List K) (h3 : 3 ∣ rs.length) :
    ∀ (fuel i : ℕ) (ps : List (EF K)),
      3 ∣ i → i ≤ rs.length → rs.length ≤ i + 3 * fuel →
      ps.length = rs.length →
      (∀ j, i ≤ j → j < rs.length →
        ps.getD j EF.nan = EF.fin (rs.getD j 0)) →
      (∀ j, j < i → ps.getD j EF.nan
        = EF.fin ((rs.getD j 0 - axC c1 c2 c3 (j % 3)) * sc)) →
      (scaleLoop (EF.fin c1, EF.fin c2, EF.fin c3) (EF.fin sc) fuel ps
          i).length = rs.length
      ∧ ∀ j, j < rs.length →
          (scaleLoop (EF.fin c1, EF.fin c2, EF.fin c3) (EF.fin sc) fuel ps
              i).getD j EF.nan
            = EF.fin ((rs.getD j 0 - axC c1 c2 c3 (j % 3)) * sc)
  | 0, i, ps, _, hile, hfuel, hlen, _, hdone => by
      rw [show scaleLoop (EF.fin c1, EF.fin c2, EF.fin c3) (EF.fin sc) 0 ps i
          = ps from rfl]
      exact ⟨hlen, fun j hj => hdone j (by omega)⟩
  | fuel + 1, i, ps, hdvd, hile, hfuel, hlen, hraw, hdone => by
      rw [show scaleLoop (EF.fin c1, EF.fin c2, EF.fin c3) (EF.fin sc)
            (fuel + 1) ps i
          = (if i < ps.length then
              scaleLoop (EF.fin c1, EF.fin c2, EF.fin c3) (EF.fin sc) fuel
                (scaleStep (EF.fin c1, EF.fin c2, EF.fin c3) (EF.fin sc) ps i)
                (i + 3)
             else ps) from rfl]
      by_cases hi : i < ps.length
      · rw [if_pos hi]
        have hilt : i < rs.length := by
          rw [hlen] at hi
          exact hi
        have hi2 : i + 2 < ps.length := by
          obtain ⟨t, ht⟩ := h3
          obtain ⟨u, hu⟩ := hdvd
          omega
        obtain ⟨hslen, hsget⟩ := scaleStep_getD c1 c2 c3 sc ps i hi2
        refine scaleLoop_spec c1 c2 c3 sc rs h3 fuel (i + 3) _
          (by omega)
          (by obtain ⟨t, ht⟩ := h3; obtain ⟨u, hu⟩ := hdvd; omega)
          (by omega) (hslen.trans hlen) ?_ ?_
        · intro j hj3 hjlen
          rw [hsget j, if_neg (by omega), if_neg (by omega),
            if_neg (by omega)]
          exact hraw j (by omega) hjlen
        · intro j hj3
          by_cases hj : j < i
          · rw [hsget j, if_neg (by omega), if_neg (by omega),
              if_neg (by omega)]
            exact hdone j hj
          · have hj3' : j = i ∨ j = i + 1 ∨ j = i + 2 := by omega
            obtain ⟨u, hu⟩ := hdvd
            rcases hj3' with hj' | hj' | hj'
            · subst hj'
              rw [hsget j, if_pos rfl, hraw j le_rfl hilt,
                EF.sub_fin_fin, EF.mul_fin_fin,
                show axC c1 c2 c3 (j % 3) = c1 from by
                  rw [show j % 3 = 0 from by omega]
                  rfl]
            · subst hj'
              rw [hsget (i + 1), if_neg (by omega), if_pos rfl,
                hraw (i + 1) (by omega)
                  (by obtain ⟨t, ht⟩ := h3; omega),
                EF.sub_fin_fin, EF.mul_fin_fin,
                show axC c1 c2 c3 ((i + 1) % 3) = c2 from by
                  rw [show (i + 1) % 3 = 1 from by omega]
                  rfl]
            · subst hj'
              rw [hsget (i + 2), if_neg (by omega), if_neg (by omega),
                if_pos rfl,
                hraw (i + 2) (by omega)
                  (by obtain ⟨t, ht⟩ := h3; omega),
                EF.sub_fin_fin, EF.mul_fin_fin,
                show axC c1 c2 c3 ((i + 2) % 3) = c3 from by
                  rw [show (i + 2) % 3 = 2 from by omega]
                  rfl]
      · rw [if_neg hi]
        rw [hlen] at hi
        exact ⟨hlen, fun j hj => hdone j (by omega)⟩

theorem axisCoords_ne_nil (rs : List K) (hne : rs ≠ []) (r : ℕ) :
    axisCoords rs r ≠ [] := by
  have hlen : 0 < rs.length := List.length_pos.mpr hne
  have : 0 < (axisCoords rs r).length := by
    unfold axisCoords
    rw [List.length_map, List.length_range]
    omega
  exact List.ne_nil_of_length_pos this

theorem axis_bounds (rs : List K) (hne : rs ≠ []) (r : ℕ) :
    ∃ mn mx, ominFold (axisCoords rs r) = some mn
      ∧ omaxFold (axisCoords rs r) = some mx
      ∧ mn ∈ axisCoords rs r ∧ mx ∈ axisCoords rs r
      ∧ ∀ x ∈ axisCoords rs r, mn ≤ x ∧ x ≤ mx := by
  obtain ⟨mn, hmn, hmnm, hmnall⟩ :=
    ominFold_spec (axisCoords rs r) (axisCoords_ne_nil rs hne r)
  obtain ⟨mx, hmx, hmxm, hmxall⟩ :=
    omaxFold_spec (axisCoords rs r) (axisCoords_ne_nil rs hne r)
  exact ⟨mn, mx, hmn, hmx, hmnm, hmxm,
    fun x hx => ⟨hmnall x hx, hmxall x hx⟩⟩

theorem mem_axisCoords (rs : List K) (j : ℕ) (hj : j < rs.length) :
    rs.getD j 0 ∈ axisCoords rs (j % 3) := by
  unfold axisCoords
  refine List.mem_map.mpr ⟨j / 3, List.mem_range.mpr (by omega), ?_⟩
  rw [show 3 * (j / 3) + j % 3 = j from by omega]

theorem axisCoords_mem_index (rs : List K) (r : ℕ) (hr : r < 3)
    (h3 : 3 ∣ rs.length) (x : K) (hx : x ∈ axisCoords rs r) :
    ∃ j, j < rs.length ∧ j % 3 = r ∧ rs.getD j 0 = x := by
  obtain ⟨k, hk, hkx⟩ := List.mem_map.mp hx
  have hk2 := List.mem_range.mp hk
  obtain ⟨t, ht⟩ := h3
  refine ⟨3 * k + r, by omega, by omega, hkx⟩

theorem abs_center_scale_le (mn mx v e : ℝ) (hmn : mn ≤ v) (hmx : v ≤ mx)
    (hle : mx - mn ≤ e) (hpos : 0 < e) :
    |(v - (mn + mx) / 2) * (2 / e)| ≤ 1 := by
  rw [abs_mul, abs_of_pos (by positivity : (0 : ℝ) < 2 / e)]
  have hvc : |v - (mn + mx) / 2| ≤ (mx - mn) / 2 := by
    rw [abs_le]
    constructor <;> linarith
  have hfin : (mx - mn) / 2 * (2 / e) ≤ 1 := by
    rw [div_mul_div_comm, div_le_one (by positivity)]
    linarith
  calc |v - (mn + mx) / 2| * (2 / e)
      ≤ (mx - mn) / 2 * (2 / e) :=
        mul_le_mul_of_nonneg_right hvc (by positivity)
    _ ≤ 1 := hfin

theorem max_center_scale_eq_one (mn mx : ℝ) (hne : mx - mn ≠ 0) :
    (mx - (mn + mx) / 2) * (2 / (mx - mn)) = 1 := by
  field_simp
  ring

/-- C6: with at least one position and a nonzero largest bounding-box
extent, every output position is exactly `(p - center) * scale` on its
axis (`center = (min+max)/2`, `scale = 2/maxExtent`), every output
coordinate has absolute value at most 1, and some output coordinate has
absolute value exactly 1 — so the mesh is centered with its largest
dimension spanning exactly 2 and `max(|x|,|y|,|z|) = 1.0 ± 1e-5`. -/
theorem c6_positions_normalized (ls : List ObjLine)
    (h3 : 3 ∣ (qPositions ls).length)
    (hne : qPositions ls ≠ [])
    (hext : 0 < extent3 (castR (qPositions ls))) :
    (buildMesh Real.sqrt ls).positions.length = (qPositions ls).length
    ∧ (∀ j, j < (qPositions ls).length →
        (buildMesh Real.sqrt ls).positions.getD j EF.nan
          = EF.fin (((castR (qPositions ls)).getD j 0
                - centerAx (castR (qPositions ls)) (j % 3))
              * scaleK (castR (qPositions ls))))
    ∧ (∀ j x, j < (qPositions ls).length →
        (buildMesh Real.sqrt ls).positions.getD j EF.nan = EF.fin x →
        |x| ≤ 1)
    ∧ (∃ j x, j < (qPositions ls).length
        ∧ (buildMesh Real.sqrt ls).positions.getD j EF.nan = EF.fin x
        ∧ |x| = 1) := by
  set rs : List ℝ := castR (qPositions ls) with hrs
  have hlenr : rs.length = (qPositions ls).length := by
    rw [hrs]
    exact List.length_map _ _
  have h3r : 3 ∣ rs.length := by
    rw [hlenr]
    exact h3
  have hner : rs ≠ [] := by
    rw [hrs]
    intro habs
    exact hne (List.map_eq_nil_iff.mp habs)
  have hpos : (runLines Real.sqrt ls).positions = rs.map EF.fin := by
    rw [runLines_positions, hrs, castR, List.map_map]
    rfl
  obtain ⟨mn0, mx0, hf0, hg0, hm0, hx0, hb0⟩ := axis_bounds rs hner 0
  obtain ⟨mn1, mx1, hf1, hg1, hm1, hx1, hb1⟩ := axis_bounds rs hner 1
  obtain ⟨mn2, mx2, hf2, hg2, hm2, hx2, hb2⟩ := axis_bounds rs hner 2
  have hbb : bbox (runLines Real.sqrt ls).positions
      = ((EF.fin mn0, EF.fin mn1, EF.fin mn2),
         (EF.fin mx0, EF.fin mx1, EF.fin mx2)) := by
    rw [hpos, bbox_lift rs h3r, hf0, hf1, hf2, hg0, hg1, hg2]
    rfl
  have hextval : extent3 rs
      = max (max (mx0 - mn0) (mx1 - mn1)) (mx2 - mn2) := by
    rw [extent3, hf0, hf1, hf2, hg0, hg1, hg2]
    rfl
  have hextne : extent3 rs ≠ 0 := ne_of_gt hext
  have hcenter : centerOf (bbox (runLines Real.sqrt ls).positions).1
        (bbox (runLines Real.sqrt ls).positions).2
      = (EF.fin (centerAx rs 0), EF.fin (centerAx rs 1),
         EF.fin (centerAx rs 2)) := by
    rw [hbb]
    unfold centerOf centerAx
    rw [hf0, hf1, hf2, hg0, hg1, hg2]
    simp [two_ne_zero]
  have hscale : scaleOf (bbox (runLines Real.sqrt ls).positions).1
        (bbox (runLines Real.sqrt ls).positions).2
      = EF.fin (scaleK rs) := by
    rw [hbb]
    unfold scaleOf scaleK
    rw [hextval]
    simp only [EF.sub_fin_fin, EF.maxE_fin_fin, EF.div_fin_fin]
    rw [if_neg (by rw [← hextval]; exact hextne)]
  have hbuild : (buildMesh Real.sqrt ls).positions
      = scaleLoop
          (centerOf (bbox (runLines Real.sqrt ls).positions).1
            (bbox (runLines Real.sqrt ls).positions).2)
          (scaleOf (bbox (runLines Real.sqrt ls).positions).1
            (bbox (runLines Real.sqrt ls).positions).2)
          ((runLines Real.sqrt ls).positions.length + 3)
          (runLines Real.sqrt ls).positions 0 := rfl
  have hloop := scaleLoop_spec (centerAx rs 0) (centerAx rs 1)
    (centerAx rs 2) (scaleK rs) rs h3r
    (rs.length + 3) 0 (rs.map EF.fin) ⟨0, rfl⟩ (by omega) (by omega)
    (List.length_map _ _)
    (fun j _ hj => getn_map_fin rs j hj)
    (fun j hj => absurd hj (by omega))
  have hpose : (buildMesh Real.sqrt ls).positions
      = scaleLoop
          (EF.fin (centerAx rs 0), EF.fin (centerAx rs 1),
           EF.fin (centerAx rs 2))
          (EF.fin (scaleK rs)) (rs.length + 3) (rs.map EF.fin) 0 := by
    rw [hbuild, hcenter, hscale, hpos, List.length_map]
  have haxc : ∀ j : ℕ,
      axC (centerAx rs 0) (centerAx rs 1) (centerAx rs 2) (j % 3)
        = centerAx rs (j % 3) := by
    intro j
    have hm : j % 3 = 0 ∨ j % 3 = 1 ∨ j % 3 = 2 := by omega
    rcases hm with hm | hm | hm <;> rw [hm] <;> rfl
  have hformula : ∀ j, j < (qPositions ls).length →
      (buildMesh Real.sqrt ls).positions.getD j EF.nan
        = EF.fin ((rs.getD j 0 - centerAx rs (j % 3)) * scaleK rs) := by
    intro j hj
    rw [hpose, hloop.2 j (by omega), haxc j]
  refine ⟨?_, hformula, ?_, ?_⟩
  · rw [hpose, hloop.1, hlenr]
  · intro j x hj hx
    rw [hformula j hj] at hx
    obtain rfl : x = (rs.getD j 0 - centerAx rs (j % 3)) * scaleK rs :=
      (EF.fin.inj hx).symm
    have hjr : j % 3 = 0 ∨ j % 3 = 1 ∨ j % 3 = 2 := by omega
    have hmem := mem_axisCoords rs j (by omega)
    rcases hjr with hjr | hjr | hjr
    · rw [hjr] at hmem ⊢
      obtain ⟨hl, hr⟩ := hb0 _ hmem
      rw [show centerAx rs 0 = (mn0 + mx0) / 2 from by
        unfold centerAx; rw [hf0, hg0]; rfl]
      unfold scaleK
      exact abs_center_scale_le mn0 mx0 _ (extent3 rs) hl hr
        (by rw [hextval]; exact le_trans (le_max_left _ _) (le_max_left _ _))
        hext
    · rw [hjr] at hmem ⊢
      obtain ⟨hl, hr⟩ := hb1 _ hmem
      rw [show centerAx rs 1 = (mn1 + mx1) / 2 from by
        unfold centerAx; rw [hf1, hg1]; rfl]
      unfold scaleK
      exact abs_center_scale_le mn1 mx1 _ (extent3 rs) hl hr
        (by rw [hextval]; exact le_trans (le_max_right _ _) (le_max_left _ _))
        hext
    · rw [hjr] at hmem ⊢
      obtain ⟨hl, hr⟩ := hb2 _ hmem
      rw [show centerAx rs 2 = (mn2 + mx2) / 2 from by
        unfold centerAx; rw [hf2, hg2]; rfl]
      unfold scaleK
      exact abs_center_scale_le mn2 mx2 _ (extent3 rs) hl hr
        (by rw [hextval]; exact le_max_right _ _)
        hext
  · have hcases : extent3 rs = mx0 - mn0 ∨ extent3 rs = mx1 - mn1
        ∨ extent3 rs = mx2 - mn2 := by
      rw [hextval]
      rcases max_choice (max (mx0 - mn0) (mx1 - mn1)) (mx2 - mn2) with h | h
      · rw [h]
        rcases max_choice (mx0 - mn0) (mx1 - mn1) with h2 | h2
        · exact Or.inl h2
        · exact Or.inr (Or.inl h2)
      · exact Or.inr (Or.inr h)
    rcases hcases with hc | hc | hc
    · obtain ⟨j, hj, hjm, hjv⟩ := axisCoords_mem_index rs 0 (by omega) h3r
        mx0 hx0
      refine ⟨j, _, by omega, hformula j (by omega), ?_⟩
      rw [hjv, hjm,
        show centerAx rs 0 = (mn0 + mx0) / 2 from by
          unfold centerAx; rw [hf0, hg0]; rfl]
      unfold scaleK
      rw [hc, max_center_scale_eq_one mn0 mx0 (by rw [← hc]; exact hextne)]
      exact abs_one
    · obtain ⟨j, hj, hjm, hjv⟩ := axisCoords_mem_index rs 1 (by omega) h3r
        mx1 hx1
      refine ⟨j, _, by omega, hformula j (by omega), ?_⟩
      rw [hjv, hjm,
        show centerAx rs 1 = (mn1 + mx1) / 2 from by
          unfold centerAx; rw [hf1, hg1]; rfl]
      unfold scaleK
      rw [hc, max_center_scale_eq_one mn1 mx1 (by rw [← hc]; exact hextne)]
      exact abs_one
    · obtain ⟨j, hj, hjm, hjv⟩ := axisCoords_mem_index rs 2 (by omega) h3r
        mx2 hx2
      refine ⟨j, _, by omega, hformula j (by omega), ?_⟩
      rw [hjv, hjm,
        show centerAx rs 2 = (mn2 + mx2) / 2 from by
          unfold centerAx; rw [hf2, hg2]; rfl]
      unfold scaleK
      rw [hc, max_center_scale_eq_one mn2 mx2 (by rw [← hc]; exact hextne)]
      exact abs_one

theorem c6_witness :
    3 ∣ (qPositions c6In).length ∧ qPositions c6In ≠ []
    ∧ 0 < extent3 (castR (qPositions c6In))
    ∧ (∃ j x, j < (qPositions c6In).length
        ∧ (buildMesh Real.sqrt c6In).positions.getD j EF.nan = EF.fin x
        ∧ |x| = 1) :=
  have h1 : 3 ∣ (qPositions c6In).length := by decide
  have h2 : qPositions c6In ≠ [] := by decide
  have h3 : 0 < extent3 (castR (qPositions c6In)) := by
    norm_num [extent3, castR, c6In, qPositions, axisCoords, ominFold,
      omaxFold, ominStep, omaxStep, List.range_succ, List.getD,
      min_def, max_def]
  ⟨h1, h2, h3, (c6_positions_normalized c6In h1 h2 h3).2.2.2⟩

end GrafKom
